import Mathlib

/-!
Verification development for the gfw_get_feature_image scripts.

The repository has four Python scripts.  The Mapbox-Vector-Tile decoding core
(WireReader / ValueDecoder / GeometryAssembler / LayerDecoder / TileDecoder)
is provided by the external mapbox_vector_tile library and is not part of the
source tree, so it is modelled here from the design document (spec.md,
sections 4 and 7); byte buffers are lists of naturals below 256 and machine
integers are Nat / Int.  The glue code (URL query rewriting, URL iteration,
download loop, filename normalisation, tile summarisation) is embedded
directly from the Python sources.
-/

namespace GFW

/-! ## Wire-format reader (modelled from the spec)

Modelled from the spec: section 4.1 WireReader, which is implemented by the
external mapbox_vector_tile / protobuf dependency and is absent from src/.
A reader wraps the remaining bytes together with the absolute byte offset of
the first remaining byte, so that errors can report the offset at which
decoding failed. -/

/-- Error taxonomy of spec section 7. -/
inductive ErrKind where
  | truncatedInput
  | varintOverflow
  | unknownWireType
  | malformedString
  | malformedLayer
  | malformedFeature
  | malformedGeometry
deriving DecidableEq

/-- Structured decode error: kind, human-readable message, byte offset. -/
structure DecodeError where
  kind : ErrKind
  msg : String
  off : Nat
deriving DecidableEq

/-- Binary cursor: remaining bytes plus the absolute offset already consumed. -/
structure Reader where
  rem : List Nat
  off : Nat
deriving DecidableEq

/-- Protobuf wire types recognised by the reader (spec section 4.1). -/
inductive WireType where
  | varint
  | fixed64
  | lengthDelimited
  | fixed32
deriving DecidableEq

/-- Varint accumulator loop: each byte contributes its low 7 bits, the high
bit signals continuation; at most 10 bytes may be consumed
(spec section 4.1, read_varint). -/
def readVarintAux : Nat → Reader → Nat → Nat → Except DecodeError (Nat × Reader)
  | 0, r, _, _ => .error ⟨.varintOverflow, "varint exceeds 10 bytes", r.off⟩
  | fuel + 1, r, shift, acc =>
    match r.rem with
    | [] => .error ⟨.truncatedInput, "buffer ended inside varint", r.off⟩
    | b :: rest =>
      if b < 128 then .ok (acc + b * 2 ^ shift, ⟨rest, r.off + 1⟩)
      else readVarintAux fuel ⟨rest, r.off + 1⟩ (shift + 7) (acc + (b % 128) * 2 ^ shift)

/-- Reads an unsigned varint of 1 to 10 bytes (spec section 4.1). -/
def read_varint (r : Reader) : Except DecodeError (Nat × Reader) :=
  readVarintAux 10 r 0 0

/-- Zigzag decoding of a varint value: even values map to non-negative
integers, odd values to negative ones; this is the arithmetic form of the
formula (n >> 1) XOR (-(n AND 1)) of spec section 4.1. -/
def zigzagDecode (n : Nat) : Int :=
  if n % 2 = 0 then (n / 2 : Nat) else -((n / 2 : Nat) + 1)

/-- Reads a zigzag-encoded signed integer (spec section 4.1). -/
def read_zigzag (r : Reader) : Except DecodeError (Int × Reader) :=
  (read_varint r).map fun p => (zigzagDecode p.1, p.2)

/-- Splits a tag varint into field number and wire type; the low three bits
must name a supported wire type (spec section 4.1, read_tag). -/
def read_tag (r : Reader) : Except DecodeError ((Nat × WireType) × Reader) :=
  match read_varint r with
  | .error e => .error e
  | .ok (v, r1) =>
    match v % 8 with
    | 0 => .ok ((v / 8, .varint), r1)
    | 1 => .ok ((v / 8, .fixed64), r1)
    | 2 => .ok ((v / 8, .lengthDelimited), r1)
    | 5 => .ok ((v / 8, .fixed32), r1)
    | _ => .error ⟨.unknownWireType, "unsupported wire type", r.off⟩

/-- Reads a varint length then that many bytes; the slice is returned as a
sub-reader that keeps the absolute offset of its first byte
(spec section 4.1, read_length_delimited). -/
def read_length_delimited (r : Reader) : Except DecodeError (Reader × Reader) :=
  match read_varint r with
  | .error e => .error e
  | .ok (n, r1) =>
    if n ≤ r1.rem.length then
      .ok (⟨r1.rem.take n, r1.off⟩, ⟨r1.rem.drop n, r1.off + n⟩)
    else .error ⟨.truncatedInput, "declared length exceeds remaining buffer", r.off⟩

/-- Reads a fixed-width little-endian value of n bytes (n is 4 or 8). -/
def readFixed (n : Nat) (r : Reader) : Except DecodeError (Nat × Reader) :=
  if n ≤ r.rem.length then
    .ok ((r.rem.take n).foldr (fun b acc => acc * 256 + b) 0, ⟨r.rem.drop n, r.off + n⟩)
  else .error ⟨.truncatedInput, "buffer ended inside fixed-width field", r.off⟩

/-- Advances past one field payload without interpreting it
(spec section 4.1, skip_field). -/
def skip_field (wt : WireType) (r : Reader) : Except DecodeError Reader :=
  match wt with
  | .varint => (read_varint r).map (·.2)
  | .fixed64 => (readFixed 8 r).map (·.2)
  | .lengthDelimited => (read_length_delimited r).map (·.2)
  | .fixed32 => (readFixed 4 r).map (·.2)

/-- Minimal varint encoding of an unsigned integer, 7 bits per byte with a
continuation high bit; the reference encoder for the round-trip law of
spec section 8. -/
def encode_varint (v : Nat) : List Nat :=
  if h : v < 128 then [v]
  else (v % 128 + 128) :: encode_varint (v / 128)
decreasing_by exact Nat.div_lt_self (by omega) (by omega)

/-! ## Value decoder (modelled from the spec, section 4.2) -/

/-- Checks that a continuation byte of a UTF-8 sequence is in 128..191. -/
def isCont (b : Nat) : Bool := 128 ≤ b && b ≤ 191

/-- UTF-8 validity check used where the format requires text
(layer names, keys, string values); invalid encoding is MalformedString. -/
def isValidUtf8 : List Nat → Bool
  | [] => true
  | b :: rest =>
    if b < 128 then isValidUtf8 rest
    else if 194 ≤ b && b ≤ 223 then
      match rest with
      | c1 :: rest1 => isCont c1 && isValidUtf8 rest1
      | _ => false
    else if 224 ≤ b && b ≤ 239 then
      match rest with
      | c1 :: c2 :: rest2 => isCont c1 && isCont c2 && isValidUtf8 rest2
      | _ => false
    else if 240 ≤ b && b ≤ 244 then
      match rest with
      | c1 :: c2 :: c3 :: rest3 => isCont c1 && isCont c2 && isCont c3 && isValidUtf8 rest3
      | _ => false
    else false

/-- Typed scalar produced by the Value decoder (spec section 4.2).  Float and
double payloads are kept as their raw little-endian bit patterns, since IEEE
arithmetic is never performed on them; int and uint varints are kept raw as
the spec prescribes, sint is zigzag-decoded. -/
inductive PropValue where
  | strV : List Nat → PropValue
  | floatBits : Nat → PropValue
  | doubleBits : Nat → PropValue
  | intRaw : Nat → PropValue
  | uintRaw : Nat → PropValue
  | sintV : Int → PropValue
  | boolV : Bool → PropValue
  | nullV : PropValue
deriving DecidableEq

/-- One step of the Value submessage loop: recognised field numbers (with the
matching wire type) each set the result, last field wins; unrecognised fields
are skipped (spec section 4.2).  Field numbers follow the MVT Value message:
1 string, 2 float, 3 double, 4 int, 5 uint, 6 sint, 7 bool. -/
def decodeValueLoop : Nat → Reader → Option PropValue → Except DecodeError PropValue
  | 0, r, _ => .error ⟨.truncatedInput, "internal fuel exhausted (unreachable)", r.off⟩
  | fuel + 1, r, acc =>
    match r.rem with
    | [] => .ok (acc.getD .nullV)
    | _ :: _ =>
      match read_tag r with
      | .error e => .error e
      | .ok ((fieldNum, wt), r1) =>
        match fieldNum, wt with
        | 1, .lengthDelimited =>
          match read_length_delimited r1 with
          | .error e => .error e
          | .ok (sub, r2) =>
            if isValidUtf8 sub.rem then decodeValueLoop fuel r2 (some (.strV sub.rem))
            else .error ⟨.malformedString, "string value is not valid UTF-8", sub.off⟩
        | 2, .fixed32 =>
          match readFixed 4 r1 with
          | .error e => .error e
          | .ok (bits, r2) => decodeValueLoop fuel r2 (some (.floatBits bits))
        | 3, .fixed64 =>
          match readFixed 8 r1 with
          | .error e => .error e
          | .ok (bits, r2) => decodeValueLoop fuel r2 (some (.doubleBits bits))
        | 4, .varint =>
          match read_varint r1 with
          | .error e => .error e
          | .ok (v, r2) => decodeValueLoop fuel r2 (some (.intRaw v))
        | 5, .varint =>
          match read_varint r1 with
          | .error e => .error e
          | .ok (v, r2) => decodeValueLoop fuel r2 (some (.uintRaw v))
        | 6, .varint =>
          match read_varint r1 with
          | .error e => .error e
          | .ok (v, r2) => decodeValueLoop fuel r2 (some (.sintV (zigzagDecode v)))
        | 7, .varint =>
          match read_varint r1 with
          | .error e => .error e
          | .ok (v, r2) => decodeValueLoop fuel r2 (some (.boolV (v ≠ 0)))
        | _, _ =>
          match skip_field wt r1 with
          | .error e => .error e
          | .ok r2 => decodeValueLoop fuel r2 acc

/-- Decodes one length-delimited Value slice (spec section 4.2): exactly zero
recognised fields yield the null scalar, several yield the last one. -/
def decode_value (sub : Reader) : Except DecodeError PropValue :=
  decodeValueLoop (sub.rem.length + 1) sub none

/-! ## Geometry assembler (modelled from the spec, section 4.3) -/

/-- Geometry type enum of a feature; unrecognised numbers map to unknown
(spec section 4.4). -/
inductive GeomType where
  | unknown
  | point
  | lineString
  | polygon
deriving DecidableEq

/-- Decoded coordinate structure (spec section 3).  A polygon is an optional
exterior ring together with its interior rings; the exterior is absent only
for the degenerate hole-before-exterior case of spec section 4.3 step 5.
For the unknown geometry type the raw command stream is retained. -/
inductive Geometry where
  | points : List (Int × Int) → Geometry
  | lineStrings : List (List (Int × Int)) → Geometry
  | polygons : List (Option (List (Int × Int)) × List (List (Int × Int))) → Geometry
  | unknownGeom : List Nat → Geometry
deriving DecidableEq

/-- Abstract command of a geometry stream after delta and zigzag decoding. -/
inductive GeomOp where
  | move : List (Int × Int) → GeomOp
  | line : List (Int × Int) → GeomOp
  | close : GeomOp
deriving DecidableEq

/-- Reads k coordinate pairs from the stream, threading the cursor and
applying zigzag-decoded deltas (spec section 4.3 step 3); stream exhaustion
mid-command is a MalformedGeometry error (step 6). -/
def readCoords (base : Nat) : Nat → Int → Int → List Nat →
    Except DecodeError (List (Int × Int) × Int × Int × List Nat)
  | 0, x, y, s => .ok ([], x, y, s)
  | k + 1, x, y, s =>
    match s with
    | dx :: dy :: rest =>
      let x1 := x + zigzagDecode dx
      let y1 := y + zigzagDecode dy
      match readCoords base k x1 y1 rest with
      | .error e => .error e
      | .ok (pts, x2, y2, s2) => .ok ((x1, y1) :: pts, x2, y2, s2)
    | _ => .error ⟨.malformedGeometry, "command stream exhausted mid-command", base⟩

/-- Parses the whole command stream into abstract operations: each integer c
splits into command id (c AND 7) and count (c >> 3); ids 1 MoveTo, 2 LineTo,
7 ClosePath (whose count must be exactly 1) are recognised, anything else is
MalformedGeometry (spec section 4.3 steps 2 and 6).  The cursor is
initialised once for the whole stream (step 1). -/
def parseOps (base : Nat) : Nat → Int → Int → List Nat → Except DecodeError (List GeomOp)
  | 0, _, _, s =>
    match s with
    | [] => .ok []
    | _ => .error ⟨.malformedGeometry, "internal fuel exhausted (unreachable)", base⟩
  | fuel + 1, x, y, s =>
    match s with
    | [] => .ok []
    | c :: rest =>
      let cid := c % 8
      let cnt := c / 8
      if cid = 1 then
        match readCoords base cnt x y rest with
        | .error e => .error e
        | .ok (pts, x1, y1, s1) =>
          (parseOps base fuel x1 y1 s1).map fun ops => .move pts :: ops
      else if cid = 2 then
        match readCoords base cnt x y rest with
        | .error e => .error e
        | .ok (pts, x1, y1, s1) =>
          (parseOps base fuel x1 y1 s1).map fun ops => .line pts :: ops
      else if cid = 7 then
        if cnt = 1 then (parseOps base fuel x y rest).map fun ops => .close :: ops
        else .error ⟨.malformedGeometry, "ClosePath count must be 1", base⟩
      else .error ⟨.malformedGeometry, "unrecognised geometry command", base⟩

/-- Twice the signed area of a ring by the shoelace formula, used to classify
exterior (positive) against interior (non-positive) rings
(spec section 4.3 step 5). -/
def shoelace (ring : List (Int × Int)) : Int :=
  match ring with
  | [] => 0
  | p0 :: _ =>
    let rec go : List (Int × Int) → Int
      | [] => 0
      | [p] => p.1 * p0.2 - p0.1 * p.2
      | p :: q :: rest => p.1 * q.2 - q.1 * p.2 + go (q :: rest)
    go ring

/-- Interprets the operation list for a multipoint: each MoveTo contributes
its coordinates as points; LineTo and ClosePath are not legal for points
(spec section 4.3 step 4). -/
def buildPoints (base : Nat) : List GeomOp → List (Int × Int) →
    Except DecodeError (List (Int × Int))
  | [], acc => .ok acc
  | .move pts :: ops, acc => buildPoints base ops (acc ++ pts)
  | .line _ :: _, _ => .error ⟨.malformedGeometry, "LineTo in point geometry", base⟩
  | .close :: _, _ => .error ⟨.malformedGeometry, "ClosePath is only legal for polygons", base⟩

/-- Interprets the operation list for linestrings: MoveTo starts a new part,
LineTo extends the current part, ClosePath is not legal
(spec section 4.3 step 4). -/
def buildLines (base : Nat) : List GeomOp → List (List (Int × Int)) → List (Int × Int) →
    Except DecodeError (List (List (Int × Int)))
  | [], done, cur => .ok (if cur = [] then done else done ++ [cur])
  | .move pts :: ops, done, cur =>
    buildLines base ops (if cur = [] then done else done ++ [cur]) pts
  | .line pts :: ops, done, cur => buildLines base ops done (cur ++ pts)
  | .close :: _, _, _ => .error ⟨.malformedGeometry, "ClosePath is only legal for polygons", base⟩

/-- Attaches a closed ring to the polygon sequence: a positive signed area
starts a new polygon, otherwise the ring is a hole of the most recent
polygon, or a degenerate exterior-less polygon when no polygon has been
started yet (spec section 4.3 step 5). -/
def pushRing (polys : List (Option (List (Int × Int)) × List (List (Int × Int))))
    (ring : List (Int × Int)) :
    List (Option (List (Int × Int)) × List (List (Int × Int))) :=
  if 0 < shoelace ring then polys ++ [(some ring, [])]
  else
    match polys.getLast? with
    | none => [(none, [ring])]
    | some last => polys.dropLast ++ [(last.1, last.2 ++ [ring])]

/-- Interprets the operation list for polygons: rings are accumulated from
MoveTo and LineTo and closed by ClosePath; a part left open at the end of the
stream or at the next MoveTo is MalformedGeometry
(spec section 4.3 steps 4 to 6). -/
def buildPolys (base : Nat) : List GeomOp →
    List (Option (List (Int × Int)) × List (List (Int × Int))) → List (Int × Int) →
    Except DecodeError (List (Option (List (Int × Int)) × List (List (Int × Int))))
  | [], polys, cur =>
    if cur = [] then .ok polys
    else .error ⟨.malformedGeometry, "polygon ring not closed", base⟩
  | .move pts :: ops, polys, cur =>
    if cur = [] then buildPolys base ops polys pts
    else .error ⟨.malformedGeometry, "polygon ring not closed", base⟩
  | .line pts :: ops, polys, cur => buildPolys base ops polys (cur ++ pts)
  | .close :: ops, polys, cur =>
    if cur = [] then .error ⟨.malformedGeometry, "ClosePath without a ring", base⟩
    else buildPolys base ops (pushRing polys cur) []

/-- Assembles a feature geometry from its type and raw command stream
(spec section 4.3); the unknown type keeps the raw stream. -/
def decode_geometry (base : Nat) (gt : GeomType) (cmds : List Nat) :
    Except DecodeError Geometry :=
  match gt with
  | .unknown => .ok (.unknownGeom cmds)
  | .point =>
    match parseOps base (cmds.length + 1) 0 0 cmds with
    | .error e => .error e
    | .ok ops => (buildPoints base ops []).map .points
  | .lineString =>
    match parseOps base (cmds.length + 1) 0 0 cmds with
    | .error e => .error e
    | .ok ops => (buildLines base ops [] []).map .lineStrings
  | .polygon =>
    match parseOps base (cmds.length + 1) 0 0 cmds with
    | .error e => .error e
    | .ok ops => (buildPolys base ops [] []).map .polygons

/-! ## Layer and feature decoding (modelled from the spec, section 4.4) -/

/-- Maps the geometry_type varint to the enum; unrecognised values map to
unknown, not an error (spec section 4.4). -/
def geomTypeOfNat (n : Nat) : GeomType :=
  match n with
  | 1 => .point
  | 2 => .lineString
  | 3 => .polygon
  | _ => .unknown

/-- Reads every varint of a packed repeated-varint slice. -/
def parsePackedVarints : Nat → Reader → Except DecodeError (List Nat)
  | 0, r => .error ⟨.truncatedInput, "internal fuel exhausted (unreachable)", r.off⟩
  | fuel + 1, r =>
    match r.rem with
    | [] => .ok []
    | _ :: _ =>
      match read_varint r with
      | .error e => .error e
      | .ok (v, r1) => (parsePackedVarints fuel r1).map fun vs => v :: vs

/-- Decoded feature before tag dereferencing: tag indices are kept as raw
integer pairs, to be resolved against the layer tables only after the whole
layer has been read (spec sections 4.4 and 9). -/
structure FeatureRaw where
  fid : Option Nat
  tagPairs : List (Nat × Nat)
  gtype : GeomType
  geometry : Geometry
deriving DecidableEq

/-- Mutable accumulator of the feature field loop. -/
structure FeatureAcc where
  fid : Option Nat
  rawTags : List Nat
  gtypeRaw : Nat
  geomRaw : List Nat
deriving DecidableEq

/-- Pairs consecutive tag indices; an odd-length sequence yields none. -/
def pairTags : List Nat → Option (List (Nat × Nat))
  | [] => some []
  | [_] => none
  | k :: v :: rest => (pairTags rest).map fun ps => (k, v) :: ps

/-- One pass over the fields of a Feature submessage (spec section 4.4):
field 1 id (varint, optional), field 2 tags (packed repeated varint, also
accepted unpacked), field 3 geometry_type (varint), field 4 geometry (packed
repeated varint, also accepted unpacked); unrecognised fields are skipped. -/
def decodeFeatureLoop : Nat → Reader → FeatureAcc → Except DecodeError FeatureAcc
  | 0, r, _ => .error ⟨.truncatedInput, "internal fuel exhausted (unreachable)", r.off⟩
  | fuel + 1, r, acc =>
    match r.rem with
    | [] => .ok acc
    | _ :: _ =>
      match read_tag r with
      | .error e => .error e
      | .ok ((fieldNum, wt), r1) =>
        match fieldNum, wt with
        | 1, .varint =>
          match read_varint r1 with
          | .error e => .error e
          | .ok (v, r2) => decodeFeatureLoop fuel r2 ⟨some v, acc.rawTags, acc.gtypeRaw, acc.geomRaw⟩
        | 2, .lengthDelimited =>
          match read_length_delimited r1 with
          | .error e => .error e
          | .ok (sub, r2) =>
            match parsePackedVarints (sub.rem.length + 1) sub with
            | .error e => .error e
            | .ok vs => decodeFeatureLoop fuel r2 ⟨acc.fid, acc.rawTags ++ vs, acc.gtypeRaw, acc.geomRaw⟩
        | 2, .varint =>
          match read_varint r1 with
          | .error e => .error e
          | .ok (v, r2) => decodeFeatureLoop fuel r2 ⟨acc.fid, acc.rawTags ++ [v], acc.gtypeRaw, acc.geomRaw⟩
        | 3, .varint =>
          match read_varint r1 with
          | .error e => .error e
          | .ok (v, r2) => decodeFeatureLoop fuel r2 ⟨acc.fid, acc.rawTags, v, acc.geomRaw⟩
        | 4, .lengthDelimited =>
          match read_length_delimited r1 with
          | .error e => .error e
          | .ok (sub, r2) =>
            match parsePackedVarints (sub.rem.length + 1) sub with
            | .error e => .error e
            | .ok vs => decodeFeatureLoop fuel r2 ⟨acc.fid, acc.rawTags, acc.gtypeRaw, acc.geomRaw ++ vs⟩
        | 4, .varint =>
          match read_varint r1 with
          | .error e => .error e
          | .ok (v, r2) => decodeFeatureLoop fuel r2 ⟨acc.fid, acc.rawTags, acc.gtypeRaw, acc.geomRaw ++ [v]⟩
        | _, _ =>
          match skip_field wt r1 with
          | .error e => .error e
          | .ok r2 => decodeFeatureLoop fuel r2 acc

/-- Decodes one length-delimited Feature slice: after the field scan, tags
must pair up (an odd-length tags sequence is MalformedFeature, spec section
4.4) and the geometry command stream is assembled now that the geometry type
is known. -/
def decode_feature (sub : Reader) : Except DecodeError FeatureRaw :=
  match decodeFeatureLoop (sub.rem.length + 1) sub ⟨none, [], 0, []⟩ with
  | .error e => .error e
  | .ok acc =>
    match pairTags acc.rawTags with
    | none => .error ⟨.malformedFeature, "odd-length tags sequence", sub.off⟩
    | some pairs =>
      let gt := geomTypeOfNat acc.gtypeRaw
      (decode_geometry sub.off gt acc.geomRaw).map fun g => ⟨acc.fid, pairs, gt, g⟩

/-- Fully decoded feature: tag indices have been dereferenced through the
layer's keys and values tables into a property list (spec section 3). -/
structure Feature where
  fid : Option Nat
  gtype : GeomType
  geometry : Geometry
  properties : List (List Nat × PropValue)
deriving DecidableEq

/-- Decoded layer (spec section 3): name is required; version defaults to 1
and extent to 4096 when absent. -/
structure LayerRec where
  name : List Nat
  version : Nat
  extent : Nat
  keys : List (List Nat)
  values : List PropValue
  features : List Feature
deriving DecidableEq

/-- Mutable accumulator of the layer field loop. -/
structure LayerAcc where
  name : Option (List Nat)
  version : Option Nat
  extent : Option Nat
  keys : List (List Nat)
  values : List PropValue
  feats : List FeatureRaw
deriving DecidableEq

/-- One pass over the fields of a Layer submessage (spec section 4.4), MVT
field numbers: 1 name (string), 2 feature, 3 key, 4 value, 5 extent,
15 version; field order in the buffer is arbitrary and unrecognised fields
are skipped. -/
def decodeLayerLoop : Nat → Reader → LayerAcc → Except DecodeError LayerAcc
  | 0, r, _ => .error ⟨.truncatedInput, "internal fuel exhausted (unreachable)", r.off⟩
  | fuel + 1, r, acc =>
    match r.rem with
    | [] => .ok acc
    | _ :: _ =>
      match read_tag r with
      | .error e => .error e
      | .ok ((fieldNum, wt), r1) =>
        match fieldNum, wt with
        | 1, .lengthDelimited =>
          match read_length_delimited r1 with
          | .error e => .error e
          | .ok (sub, r2) =>
            if isValidUtf8 sub.rem then
              decodeLayerLoop fuel r2 ⟨some sub.rem, acc.version, acc.extent, acc.keys, acc.values, acc.feats⟩
            else .error ⟨.malformedString, "layer name is not valid UTF-8", sub.off⟩
        | 2, .lengthDelimited =>
          match read_length_delimited r1 with
          | .error e => .error e
          | .ok (sub, r2) =>
            match decode_feature sub with
            | .error e => .error e
            | .ok f =>
              decodeLayerLoop fuel r2 ⟨acc.name, acc.version, acc.extent, acc.keys, acc.values, acc.feats ++ [f]⟩
        | 3, .lengthDelimited =>
          match read_length_delimited r1 with
          | .error e => .error e
          | .ok (sub, r2) =>
            if isValidUtf8 sub.rem then
              decodeLayerLoop fuel r2 ⟨acc.name, acc.version, acc.extent, acc.keys ++ [sub.rem], acc.values, acc.feats⟩
            else .error ⟨.malformedString, "layer key is not valid UTF-8", sub.off⟩
        | 4, .lengthDelimited =>
          match read_length_delimited r1 with
          | .error e => .error e
          | .ok (sub, r2) =>
            match decode_value sub with
            | .error e => .error e
            | .ok v =>
              decodeLayerLoop fuel r2 ⟨acc.name, acc.version, acc.extent, acc.keys, acc.values ++ [v], acc.feats⟩
        | 5, .varint =>
          match read_varint r1 with
          | .error e => .error e
          | .ok (v, r2) =>
            decodeLayerLoop fuel r2 ⟨acc.name, acc.version, some v, acc.keys, acc.values, acc.feats⟩
        | 15, .varint =>
          match read_varint r1 with
          | .error e => .error e
          | .ok (v, r2) =>
            decodeLayerLoop fuel r2 ⟨acc.name, some v, acc.extent, acc.keys, acc.values, acc.feats⟩
        | _, _ =>
          match skip_field wt r1 with
          | .error e => .error e
          | .ok r2 => decodeLayerLoop fuel r2 acc

/-- Dereferences the tag pairs of one raw feature through the layer tables;
an index out of bounds of keys or values is MalformedFeature, not a silent
default (spec section 3 invariant). -/
def derefFeature (base : Nat) (keys : List (List Nat)) (values : List PropValue)
    (f : FeatureRaw) : Except DecodeError Feature :=
  let rec go : List (Nat × Nat) → Except DecodeError (List (List Nat × PropValue))
    | [] => .ok []
    | (ki, vi) :: rest =>
      match keys.get? ki, values.get? vi with
      | some k, some v => (go rest).map fun ps => (k, v) :: ps
      | _, _ => .error ⟨.malformedFeature, "tag index out of bounds of keys or values", base⟩
  (go f.tagPairs).map fun props => ⟨f.fid, f.gtype, f.geometry, props⟩

/-- Collects the dereferenced features of a layer in order. -/
def derefFeatures (base : Nat) (keys : List (List Nat)) (values : List PropValue) :
    List FeatureRaw → Except DecodeError (List Feature)
  | [] => .ok []
  | f :: fs =>
    match derefFeature base keys values f with
    | .error e => .error e
    | .ok f1 => (derefFeatures base keys values fs).map fun l => f1 :: l

/-- Decodes one length-delimited Layer slice (spec section 4.4): after the
field scan, a missing name is a fatal MalformedLayer error, version and
extent take their defaults, and tag dereferencing is performed now that the
keys and values tables are complete. -/
def decode_layer (sub : Reader) : Except DecodeError LayerRec :=
  match decodeLayerLoop (sub.rem.length + 1) sub ⟨none, none, none, [], [], []⟩ with
  | .error e => .error e
  | .ok acc =>
    match acc.name with
    | none => .error ⟨.malformedLayer, "layer name is required", sub.off⟩
    | some nm =>
      (derefFeatures sub.off acc.keys acc.values acc.feats).map fun fs =>
        ⟨nm, acc.version.getD 1, acc.extent.getD 4096, acc.keys, acc.values, fs⟩

/-! ## Tile decoding (modelled from the spec, section 4.5) and the
name-keyed tile of decode_tile (src/get_features.py lines 53-55)

The spec describes the tile as the ordered sequence of decoded layers in
buffer encounter order; decodeTileLayers follows those words.  The Python
decode_tile, however, returns the decoded tile as a dictionary keyed by layer
name (its annotation is Dict[str, Any] and summarize_layers and
print_geometries iterate tile.items()), so decode_tile is embedded as the
insertion-ordered name-keyed mapping built from that layer sequence. -/

/-- Top-level loop: the only recognised field of the tile message is the
repeated length-delimited Layer field, number 3; every occurrence is decoded
and appended in encounter order, unrecognised fields are skipped
(spec section 4.5). -/
def decodeTileLoop : Nat → Reader → List LayerRec → Except DecodeError (List LayerRec)
  | 0, r, _ => .error ⟨.truncatedInput, "internal fuel exhausted (unreachable)", r.off⟩
  | fuel + 1, r, acc =>
    match r.rem with
    | [] => .ok acc
    | _ :: _ =>
      match read_tag r with
      | .error e => .error e
      | .ok ((fieldNum, wt), r1) =>
        if fieldNum = 3 ∧ wt = .lengthDelimited then
          match read_length_delimited r1 with
          | .error e => .error e
          | .ok (sub, r2) =>
            match decode_layer sub with
            | .error e => .error e
            | .ok l => decodeTileLoop fuel r2 (acc ++ [l])
        else
          match skip_field wt r1 with
          | .error e => .error e
          | .ok r2 => decodeTileLoop fuel r2 acc

/-- The layer sequence of a tile buffer in encounter order
(spec section 4.5). -/
def decodeTileLayers (buf : List Nat) : Except DecodeError (List LayerRec) :=
  decodeTileLoop (buf.length + 1) ⟨buf, 0⟩ []

/-- Insertion-ordered dictionary insert: an existing key keeps its position
and its value is overwritten, a new key is appended (Python dict update). -/
def dictInsert {α : Type} [DecidableEq α] {β : Type} :
    List (α × β) → α → β → List (α × β)
  | [], k, v => [(k, v)]
  | (k1, v1) :: rest, k, v =>
    if k1 = k then (k, v) :: rest else (k1, v1) :: dictInsert rest k v

/-- Folds the decoded layer sequence into the name-keyed dictionary that the
mapbox_vector_tile decoder hands back to the scripts. -/
def layersToDict (ls : List LayerRec) : List (List Nat × LayerRec) :=
  ls.foldl (fun d l => dictInsert d l.name l) []

/-- Embedding of decode_tile (src/get_features.py lines 53-55): the decoded
tile as the name-keyed mapping of its layers. -/
def decode_tile (buf : List Nat) : Except DecodeError (List (List Nat × LayerRec)) :=
  (decodeTileLayers buf).map layersToDict

/-! ## URL query rewriting (src/get_features.py lines 124-147)

adjust_matched_filter parses the query with urllib.parse.parse_qsl
(keep_blank_values=True), drops every filters[0] item, appends the new
matched filter unless the choice is "any", and re-encodes with
urllib.parse.urlencode (doseq=True, whose quoting function is quote_plus).
Strings are modelled as their UTF-8 byte lists, so the urllib primitives are
embedded byte by byte. -/

/-- UTF-8 bytes of an ASCII string literal. -/
def strBytes (s : String) : List Nat := s.data.map Char.toNat

/-- Hex digit test of the percent-decoder (0-9, A-F, a-f). -/
def isHexDigit (b : Nat) : Bool :=
  (48 ≤ b && b ≤ 57) || (65 ≤ b && b ≤ 70) || (97 ≤ b && b ≤ 102)

/-- Value of a hex digit byte. -/
def hexVal (b : Nat) : Nat :=
  if b ≤ 57 then b - 48 else if b ≤ 70 then b - 55 else b - 87

/-- Upper-case hex digit byte of a value below 16 (CPython quotes with
percent and two upper-case digits). -/
def hexDigit (n : Nat) : Nat := if n < 10 then n + 48 else n + 55

/-- Bytes never quoted by urllib.parse.quote: ASCII letters, digits and the
four marks underscore, dot, hyphen, tilde. -/
def alwaysSafe (b : Nat) : Bool :=
  (48 ≤ b && b ≤ 57) || (65 ≤ b && b ≤ 90) || (97 ≤ b && b ≤ 122) ||
    b = 95 || b = 46 || b = 45 || b = 126

/-- urllib.parse.quote_plus with an empty safe set, as used by urlencode:
safe bytes pass through, the space becomes a plus, everything else becomes a
percent-escape. -/
def quote_plus : List Nat → List Nat
  | [] => []
  | b :: rest =>
    (if alwaysSafe b then [b]
     else if b = 32 then [43]
     else [37, hexDigit (b / 16), hexDigit (b % 16)]) ++ quote_plus rest

/-- urllib.parse.unquote_plus: a plus becomes a space and a percent followed
by two hex digits becomes the encoded byte; an invalid escape stays
literal. -/
def unquote_plus : List Nat → List Nat
  | [] => []
  | b :: rest =>
    if b = 43 then 32 :: unquote_plus rest
    else if b = 37 then
      match rest with
      | h1 :: h2 :: rest2 =>
        if isHexDigit h1 && isHexDigit h2 then
          (hexVal h1 * 16 + hexVal h2) :: unquote_plus rest2
        else 37 :: unquote_plus (h1 :: h2 :: rest2)
      | [h1] => 37 :: unquote_plus [h1]
      | [] => [37]
    else b :: unquote_plus rest
termination_by l => l.length
decreasing_by all_goals simp [List.length_cons] <;> omega

/-- Splits a byte string on the ampersand separator, keeping empty pieces
(Python str.split). -/
def splitAmp : List Nat → List (List Nat)
  | [] => [[]]
  | b :: rest =>
    if b = 38 then [] :: splitAmp rest
    else
      match splitAmp rest with
      | s :: ss => (b :: s) :: ss
      | [] => [[b]]

/-- Splits a name-value piece at its first equals sign, or returns none when
there is no equals sign (Python str.split with maxsplit 1). -/
def splitEq : List Nat → Option (List Nat × List Nat)
  | [] => none
  | b :: rest =>
    if b = 61 then some ([], rest)
    else (splitEq rest).map fun p => (b :: p.1, p.2)

/-- One name-value piece of a query string: an empty piece is dropped, a
piece without an equals sign keeps a blank value, and name and value are
plus- and percent-decoded. -/
def parsePiece (nv : List Nat) : Option (List Nat × List Nat) :=
  if nv = [] then none
  else
    match splitEq nv with
    | some (k, v) => some (unquote_plus k, unquote_plus v)
    | none => some (unquote_plus nv, [])

/-- urllib.parse.parse_qsl with keep_blank_values=True: pieces are split on
ampersands and parsed one by one. -/
def parse_qsl (q : List Nat) : List (List Nat × List Nat) :=
  (splitAmp q).filterMap parsePiece

/-- Joins encoded name-value pieces with ampersands (str.join). -/
def joinAmp : List (List Nat) → List Nat
  | [] => []
  | [s] => s
  | s :: rest => s ++ 38 :: joinAmp rest

/-- urllib.parse.urlencode over string pairs (doseq=True behaves identically
on string values): each name and value is quoted with quote_plus and the
pieces are joined with ampersands. -/
def urlencode (pairs : List (List Nat × List Nat)) : List Nat :=
  joinAmp (pairs.map fun p => quote_plus p.1 ++ 61 :: quote_plus p.2)

/-- A split URL as urllib.parse.urlsplit yields it: scheme, netloc, path,
query, fragment.  adjust_matched_filter rebuilds the same components with
urlunsplit, replacing only the query. -/
structure Url where
  scheme : List Nat
  netloc : List Nat
  path : List Nat
  query : List Nat
  fragment : List Nat
deriving DecidableEq

/-- The decoded key "filters[0]" targeted by adjust_matched_filter. -/
def filters0 : List Nat := strBytes "filters[0]"

/-- The filter value "matched IN ('choice')" built by adjust_matched_filter;
byte 39 is the apostrophe and byte 41 the closing parenthesis. -/
def matchedValue (choice : List Nat) : List Nat :=
  strBytes "matched IN (" ++ 39 :: choice ++ [39, 41]

/-- Embedding of adjust_matched_filter (src/get_features.py lines 124-147):
None leaves the URL unchanged, "any" removes the matched filter, any other
choice sets filters[0] to the matched predicate; existing filters[0] items
are dropped first and the query is re-encoded. -/
def adjust_matched_filter (url : Url) (matched_choice : Option (List Nat)) : Url :=
  match matched_choice with
  | none => url
  | some choice =>
    let query_items := parse_qsl url.query
    let query_items := query_items.filter fun kv => kv.1 ≠ filters0
    let query_items :=
      if choice ≠ strBytes "any" then query_items ++ [(filters0, matchedValue choice)]
      else query_items
    ⟨url.scheme, url.netloc, url.path, urlencode query_items, url.fragment⟩

/-! ## URL iteration and the download loop (src/get_images_raw.py) -/

/-- Worker of iterate_urls: the seen set is modelled as the list of URLs
already yielded (src/get_images_raw.py lines 89-95). -/
def iterateUrlsGo (seen : List String) : List String → List String
  | [] => []
  | u :: rest =>
    if u ∈ seen then iterateUrlsGo seen rest
    else u :: iterateUrlsGo (u :: seen) rest

/-- Embedding of iterate_urls (src/get_images_raw.py lines 89-95): yields
URLs, skipping any URL already seen. -/
def iterate_urls (urls : List String) : List String := iterateUrlsGo [] urls

/-- The list of distinct URLs in order of first occurrence, written directly
from the words of the claim; to be compared with iterate_urls. -/
def firstOccurrences : List String → List String
  | [] => []
  | u :: rest => u :: firstOccurrences (rest.filter fun v => v ≠ u)
termination_by l => l.length
decreasing_by simp [List.length_cons]; exact Nat.lt_succ_of_le (List.length_filter_le _ _)

/-- Outcome of the download loop of main (src/get_images_raw.py lines
148-166): the success counter, the failure list, and the log of URLs passed
to download_image, in call order. -/
structure RunResult where
  successes : Nat
  failures : List String
  callLog : List String
deriving DecidableEq

/-- Embedding of the download loop of main (src/get_images_raw.py lines
152-166): every URL yielded by iterate_urls is passed to download_image
exactly once; on failure the URL is appended to the failure list and the
loop moves on.  The download outcome is abstracted by the oracle ok. -/
def mainDownloadLoop (ok : String → Bool) (urls : List String) : RunResult :=
  (iterate_urls urls).foldl
    (fun acc u =>
      if ok u then ⟨acc.successes + 1, acc.failures, acc.callLog ++ [u]⟩
      else ⟨acc.successes, acc.failures ++ [u], acc.callLog ++ [u]⟩)
    ⟨0, [], []⟩

/-! ## Output filename of decode_entry (src/convert_bins_to_png.py) -/

/-- Splits a byte string on the slash separator, keeping empty pieces. -/
def splitSlash : List Nat → List (List Nat)
  | [] => [[]]
  | b :: rest =>
    if b = 47 then [] :: splitSlash rest
    else
      match splitSlash rest with
      | s :: ss => (b :: s) :: ss
      | [] => [[b]]

/-- pathlib PurePosixPath(name).name: the final path component, after
dropping empty and single-dot components. -/
def pathName (s : List Nat) : List Nat :=
  (((splitSlash s).filter fun c => c ≠ [] && c ≠ [46]).getLast?).getD []

/-- ASCII lower-casing as used by str.lower on the filename bytes. -/
def pyLower (s : List Nat) : List Nat :=
  s.map fun b => if 65 ≤ b && b ≤ 90 then b + 32 else b

/-- The output filename computed by decode_entry (src/convert_bins_to_png.py
lines 12-17): a missing or empty name falls back to image.png, the path is
reduced to its final component, and .png is appended unless the lower-cased
name already ends with it. -/
def outputName (nameField : Option (List Nat)) : List Nat :=
  let name :=
    match nameField with
    | none => strBytes "image.png"
    | some [] => strBytes "image.png"
    | some s => s
  let name := pathName name
  if (strBytes ".png").isSuffixOf (pyLower name) then name
  else name ++ strBytes ".png"

/-- Embedding of decode_entry (src/convert_bins_to_png.py lines 12-29) over
an entry with optional name and data fields.  The base64 decoder of the
standard library is abstracted by the parameter b64decode; the data field is
split at its first comma to drop a data-URL prefix. -/
def decode_entry (b64decode : List Nat → Option (List Nat))
    (nameField : Option (List Nat)) (dataField : Option (List Nat)) :
    Option (List Nat × List Nat) :=
  let name := outputName nameField
  let dataf := dataField.getD []
  let b64data :=
    match splitEq1 44 dataf with
    | some p => p.2
    | none => dataf
  (b64decode b64data).map fun decoded => (name, decoded)
where
  /-- str.partition at the first occurrence of a separator byte. -/
  splitEq1 (sep : Nat) : List Nat → Option (List Nat × List Nat)
    | [] => none
    | b :: rest =>
      if b = sep then some ([], rest)
      else (splitEq1 sep rest).map fun p => (b :: p.1, p.2)

/-! ## Tile consumers (src/get_features.py lines 58-121)

summarize_layers, truncate_geometry and print_geometries work on the decoded
tile as dynamically typed Python data, so for them the tile is modelled as
generic Python values; the functions thread an explicit console state whose
tile component every statement of the source only reads. -/

/-- Generic Python value as the consumers see it. -/
inductive PyVal where
  | intV : Int → PyVal
  | strV : List Nat → PyVal
  | noneV : PyVal
  | listV : List PyVal → PyVal

/-- A decoded feature as a Python dict with the keys the consumers read. -/
structure PyFeature where
  ftype : PyVal
  properties : List (List Nat × PyVal)
  geometry : PyVal

/-- A decoded layer as a Python dict with a features list. -/
structure PyLayer where
  features : List PyFeature

/-- The decoded tile dict: layer name to layer data. -/
def PyTile : Type := List (List Nat × PyLayer)

/-- One printed console line, kept structurally. -/
inductive OutLine where
  | noLayers : OutLine
  | noGeoms : OutLine
  | geomHeader : Nat → Nat → OutLine
  | layerHeader : List Nat → Nat → OutLine
  | featureSummary : Nat → PyVal → PyVal → List (List Nat × PyVal) → OutLine
  | featureGeom : Nat → PyVal → PyVal → OutLine
  | moreOmitted : Nat → OutLine

/-- Console state threaded through the consumers: the tile they were handed
and the lines printed so far. -/
structure ConsoleSt where
  tile : PyTile
  out : List OutLine

/-- Python truthiness of the modelled values. -/
def pyTruthy : PyVal → Bool
  | .intV i => decide (i ≠ 0)
  | .strV s => decide (s ≠ [])
  | .noneV => false
  | .listV xs => !xs.isEmpty

/-- The sample geometry shown by summarize_layers (src/get_features.py lines
76-80): the head of a truthy list, a truthy non-list itself, otherwise
None. -/
def firstGeom (g : PyVal) : PyVal :=
  if pyTruthy g then
    match g with
    | .listV (x :: _) => x
    | g1 => g1
  else .noneV

/-- Lower bound helper for sizeOf of a taken prefix. -/
theorem sizeOf_take_le (xs : List PyVal) (n : Nat) : sizeOf (xs.take n) ≤ sizeOf xs := by
  induction xs generalizing n with
  | nil => cases n <;> simp
  | cons x rest ih =>
    cases n with
    | zero => simp [List.take]; omega
    | succ m =>
      simp only [List.take, List.cons.sizeOf_spec]
      have := ih m
      omega

mutual
/-- Embedding of truncate_geometry (src/get_features.py lines 91-96):
non-lists are returned unchanged, a list keeps its first max_coords elements,
each recursively truncated.  The Python slice geom[:max_coords] is take for
the non-negative bounds the program uses. -/
def truncate_geometry : PyVal → Nat → PyVal
  | .listV xs, n => .listV (truncList (xs.take n) n)
  | g, _ => g
termination_by g _ => sizeOf g
decreasing_by
  have := sizeOf_take_le xs n
  simp only [PyVal.listV.sizeOf_spec]
  omega

/-- List worker of truncate_geometry. -/
def truncList : List PyVal → Nat → List PyVal
  | [], _ => []
  | x :: xs, n => truncate_geometry x n :: truncList xs n
termination_by xs _ => sizeOf xs
decreasing_by
  · simp; omega
  · simp
end

/-- Per-layer body of the summarize_layers loop (src/get_features.py lines
67-88): prints the header line, one line per sample feature, and the omitted
count when features were cut. -/
def summarizeLayerStep (maxFeatures : Nat) (st : ConsoleSt)
    (layer : List Nat × PyLayer) : ConsoleSt :=
  let features := layer.2.features
  let st1 : ConsoleSt := ⟨st.tile, st.out ++ [.layerHeader layer.1 features.length]⟩
  let st2 : ConsoleSt :=
    (List.enumFrom 1 (features.take maxFeatures)).foldl
      (fun s p =>
        ⟨s.tile, s.out ++ [.featureSummary p.1 p.2.ftype (firstGeom p.2.geometry) p.2.properties]⟩)
      st1
  if maxFeatures < features.length then
    ⟨st2.tile, st2.out ++ [.moreOmitted (features.length - maxFeatures)]⟩
  else st2

/-- Embedding of summarize_layers (src/get_features.py lines 58-88). -/
def summarize_layers (st : ConsoleSt) (maxFeatures : Nat) : ConsoleSt :=
  if st.tile.isEmpty then ⟨st.tile, st.out ++ [.noLayers]⟩
  else st.tile.foldl (summarizeLayerStep maxFeatures) st

/-- Per-layer body of the print_geometries loop (src/get_features.py lines
108-121): layers without features are skipped, otherwise the header, one
geometry line per shown feature with its geometry truncated, and the omitted
count are printed. -/
def printGeomLayerStep (maxFeatures maxCoords : Nat) (st : ConsoleSt)
    (layer : List Nat × PyLayer) : ConsoleSt :=
  let features := layer.2.features
  if features.isEmpty then st
  else
    let st1 : ConsoleSt := ⟨st.tile, st.out ++ [.layerHeader layer.1 features.length]⟩
    let st2 : ConsoleSt :=
      (List.enumFrom 1 (features.take maxFeatures)).foldl
        (fun s p =>
          ⟨s.tile, s.out ++ [.featureGeom p.1 p.2.ftype (truncate_geometry p.2.geometry maxCoords)]⟩)
        st1
    if maxFeatures < features.length then
      ⟨st2.tile, st2.out ++ [.moreOmitted (features.length - maxFeatures)]⟩
    else st2

/-- Embedding of print_geometries (src/get_features.py lines 99-121). -/
def print_geometries (st : ConsoleSt) (maxFeatures maxCoords : Nat) : ConsoleSt :=
  if st.tile.isEmpty then ⟨st.tile, st.out ++ [.noGeoms]⟩
  else
    st.tile.foldl (printGeomLayerStep maxFeatures maxCoords)
      ⟨st.tile, st.out ++ [.geomHeader maxFeatures maxCoords]⟩

mutual
/-- Bound check of the truncation result: every list at every depth has at
most n elements. -/
def boundedB : PyVal → Nat → Bool
  | .listV xs, n => decide (xs.length ≤ n) && boundedListB xs n
  | _, _ => true

/-- List worker of boundedB. -/
def boundedListB : List PyVal → Nat → Bool
  | [], _ => true
  | x :: xs, n => boundedB x n && boundedListB xs n
end

/-! ## Theorems -/

/-- C2: For the empty byte buffer as input, decode_tile returns successfully
(raises no error) and the resulting Tile contains zero layers. -/
theorem decode_tile_empty_buffer : decode_tile [] = .ok [] := rfl

/-- truncList is the elementwise truncation. -/
theorem truncList_eq_map (xs : List PyVal) (n : Nat) :
    truncList xs n = xs.map fun x => truncate_geometry x n := by
  induction xs with
  | nil => simp [truncList]
  | cons x rest ih => simp [truncList, ih]

/-- boundedListB is the conjunction of boundedB over the elements. -/
theorem boundedListB_eq (xs : List PyVal) (n : Nat) :
    boundedListB xs n = xs.all fun x => boundedB x n := by
  induction xs with
  | nil => simp [boundedListB]
  | cons x rest ih => simp [boundedListB, ih]

/-- Size-bounded auxiliary induction for the truncation bound. -/
theorem boundedB_truncate_aux :
    ∀ (N : Nat) (g : PyVal), sizeOf g < N → ∀ n, boundedB (truncate_geometry g n) n = true := by
  intro N
  induction N with
  | zero => intro g h; omega
  | succ N ih =>
    intro g hg n
    cases g with
    | intV i => simp [truncate_geometry, boundedB]
    | strV s => simp [truncate_geometry, boundedB]
    | noneV => simp [truncate_geometry, boundedB]
    | listV xs =>
      rw [truncate_geometry, truncList_eq_map]
      simp only [boundedB, boundedListB_eq, Bool.and_eq_true, decide_eq_true_eq,
        List.all_eq_true, List.length_map]
      refine ⟨List.length_take_le _ _, ?_⟩
      intro x hx
      obtain ⟨y, hy, rfl⟩ := List.mem_map.mp hx
      have hyx : y ∈ xs := List.mem_of_mem_take hy
      have h1 : sizeOf y < sizeOf (PyVal.listV xs) := by
        have := List.sizeOf_lt_of_mem hyx
        simp only [PyVal.listV.sizeOf_spec]
        omega
      exact ih y (by omega) n

/-- C6: for every nested geometry value and non-negative max_coords, the
truncation bounds every list at every depth by max_coords, replaces a list
by the truncations of its first max_coords elements, and leaves every
non-list value unchanged. -/
theorem truncate_geometry_spec (g : PyVal) (n : Nat) :
    boundedB (truncate_geometry g n) n = true
    ∧ (∀ xs : List PyVal,
        truncate_geometry (.listV xs) n
          = .listV ((xs.take n).map fun x => truncate_geometry x n))
    ∧ (∀ i : Int, truncate_geometry (.intV i) n = .intV i)
    ∧ (∀ s : List Nat, truncate_geometry (.strV s) n = .strV s)
    ∧ truncate_geometry .noneV n = .noneV := by
  refine ⟨boundedB_truncate_aux (sizeOf g + 1) g (by omega) n, ?_, ?_, ?_, ?_⟩
  · intro xs; rw [truncate_geometry, truncList_eq_map]
  · intro i; simp [truncate_geometry]
  · intro s; simp [truncate_geometry]
  · simp [truncate_geometry]

/-- A fold whose step preserves the tile component preserves it overall. -/
theorem foldl_preserves_tile {α : Type} (f : ConsoleSt → α → ConsoleSt)
    (hf : ∀ s a, (f s a).tile = s.tile) (l : List α) (s : ConsoleSt) :
    (l.foldl f s).tile = s.tile := by
  induction l generalizing s with
  | nil => rfl
  | cons a rest ih => rw [List.foldl_cons, ih, hf]

/-- The per-layer step of summarize_layers only appends output. -/
theorem summarizeLayerStep_tile (mf : Nat) (s : ConsoleSt) (lay : List Nat × PyLayer) :
    (summarizeLayerStep mf s lay).tile = s.tile := by
  unfold summarizeLayerStep
  dsimp only
  split
  · dsimp only
    apply foldl_preserves_tile
    intro s1 a1
    rfl
  · apply foldl_preserves_tile
    intro s1 a1
    rfl

/-- The per-layer step of print_geometries only appends output. -/
theorem printGeomLayerStep_tile (mf mc : Nat) (s : ConsoleSt) (lay : List Nat × PyLayer) :
    (printGeomLayerStep mf mc s lay).tile = s.tile := by
  unfold printGeomLayerStep
  dsimp only
  split
  · rfl
  · split
    · dsimp only
      apply foldl_preserves_tile
      intro s1 a1
      rfl
    · apply foldl_preserves_tile
      intro s1 a1
      rfl

/-- C7: the consumers summarize_layers and print_geometries (the latter
applying truncate_geometry to every displayed geometry) leave the tile they
were handed unchanged; they only append console output. -/
theorem consumers_read_only (st : ConsoleSt) (mf mc : Nat) :
    (summarize_layers st mf).tile = st.tile
    ∧ (print_geometries st mf mc).tile = st.tile := by
  constructor
  · unfold summarize_layers
    split
    · rfl
    · exact foldl_preserves_tile _ (summarizeLayerStep_tile mf) _ _
  · unfold print_geometries
    split
    · rfl
    · exact foldl_preserves_tile _ (printGeomLayerStep_tile mf mc) _ _

/-- The seen-set worker agrees with the first-occurrence filter of the
remaining input. -/
theorem iterateUrlsGo_eq (us : List String) :
    ∀ seen : List String,
      iterateUrlsGo seen us = firstOccurrences (us.filter fun u => decide (u ∉ seen)) := by
  induction us with
  | nil => intro seen; simp [iterateUrlsGo, firstOccurrences]
  | cons u rest ih =>
    intro seen
    by_cases hu : u ∈ seen
    · rw [iterateUrlsGo, if_pos hu, List.filter_cons_of_neg (by simpa using hu), ih]
    · rw [iterateUrlsGo, if_neg hu, List.filter_cons_of_pos (by simpa using hu),
        firstOccurrences, ih (u :: seen), List.filter_filter]
      have hf : ∀ v ∈ rest, (decide (v ∉ u :: seen) : Bool)
          = (decide (v ≠ u) && decide (v ∉ seen)) := by
        intro v _
        simp [List.mem_cons, not_or]
      rw [List.filter_congr hf]

/-- Membership, distinctness and first-occurrence structure of
firstOccurrences, by strong induction on the length. -/
theorem firstOccurrences_props :
    ∀ (N : Nat) (l : List String), l.length ≤ N →
      (∀ x, x ∈ firstOccurrences l ↔ x ∈ l) ∧ (firstOccurrences l).Nodup := by
  intro N
  induction N with
  | zero =>
    intro l hl
    have : l = [] := List.length_eq_zero.mp (Nat.le_antisymm hl (Nat.zero_le _))
    subst this
    simp [firstOccurrences]
  | succ N ih =>
    intro l hl
    cases l with
    | nil => simp [firstOccurrences]
    | cons u rest =>
      have hflen : (rest.filter fun v => decide (v ≠ u)).length ≤ N := by
        have h1 := List.length_filter_le (fun v => decide (v ≠ u)) rest
        have h2 : rest.length ≤ N := by simpa using Nat.le_of_succ_le_succ hl
        omega
      obtain ⟨hm, hnd⟩ := ih _ hflen
      rw [firstOccurrences]
      constructor
      · intro x
        constructor
        · intro hx
          rcases List.mem_cons.mp hx with h | h
          · exact h ▸ List.mem_cons_self _ _
          · have := (hm x).mp h
            exact List.mem_cons_of_mem _ (List.mem_of_mem_filter this)
        · intro hx
          rcases List.mem_cons.mp hx with h | h
          · exact h ▸ List.mem_cons_self _ _
          · by_cases hxu : x = u
            · exact hxu ▸ List.mem_cons_self _ _
            · exact List.mem_cons_of_mem _
                ((hm x).mpr (List.mem_filter.mpr ⟨h, by simpa using hxu⟩))
      · refine List.nodup_cons.mpr ⟨?_, hnd⟩
        intro hu
        have := List.mem_filter.mp ((hm u).mp hu)
        simp at this

/-- The download loop logs exactly the deduplicated URLs and records a
failure exactly for each logged URL the oracle rejects. -/
theorem mainDownloadLoop_log (ok : String → Bool) (urls : List String) :
    (mainDownloadLoop ok urls).callLog = iterate_urls urls
    ∧ (mainDownloadLoop ok urls).failures
        = (iterate_urls urls).filter fun v => !(ok v) := by
  have key : ∀ (l : List String) (acc : RunResult),
      (l.foldl (fun acc u =>
        if ok u then ⟨acc.successes + 1, acc.failures, acc.callLog ++ [u]⟩
        else ⟨acc.successes, acc.failures ++ [u], acc.callLog ++ [u]⟩) acc).callLog
          = acc.callLog ++ l
      ∧ (l.foldl (fun acc u =>
        if ok u then ⟨acc.successes + 1, acc.failures, acc.callLog ++ [u]⟩
        else ⟨acc.successes, acc.failures ++ [u], acc.callLog ++ [u]⟩) acc).failures
          = acc.failures ++ l.filter fun v => !(ok v) := by
    intro l
    induction l with
    | nil => intro acc; simp
    | cons u rest ihl =>
      intro acc
      rw [List.foldl_cons]
      by_cases hu : ok u = true
      · rw [if_pos hu]
        obtain ⟨h1, h2⟩ := ihl ⟨acc.successes + 1, acc.failures, acc.callLog ++ [u]⟩
        refine ⟨?_, ?_⟩
        · rw [h1]; simp
        · rw [h2]; simp [List.filter_cons, hu]
      · rw [if_neg hu]
        have hu' : ok u = false := by simpa using hu
        obtain ⟨h1, h2⟩ := ihl ⟨acc.successes, acc.failures ++ [u], acc.callLog ++ [u]⟩
        refine ⟨?_, ?_⟩
        · rw [h1]; simp
        · rw [h2]; simp [List.filter_cons, hu']
  have h := key (iterate_urls urls) ⟨0, [], []⟩
  exact ⟨by simpa using h.1, by simpa using h.2⟩

/-- C9: iterate_urls yields each distinct URL of its input exactly once, in
order of first occurrence (it equals the recursive first-occurrence
sequence, contains exactly the members of the input and is duplicate-free),
and consequently the download loop of main passes no URL to download_image
twice. -/
theorem iterate_urls_spec (ok : String → Bool) (urls : List String) :
    iterate_urls urls = firstOccurrences urls
    ∧ (∀ u, u ∈ iterate_urls urls ↔ u ∈ urls)
    ∧ (iterate_urls urls).Nodup
    ∧ (mainDownloadLoop ok urls).callLog.Nodup := by
  have heq : iterate_urls urls = firstOccurrences urls := by
    have := iterateUrlsGo_eq urls []
    simpa [iterate_urls, List.filter_eq_self.mpr] using this
  obtain ⟨hm, hnd⟩ := firstOccurrences_props urls.length urls le_rfl
  refine ⟨heq, ?_, ?_, ?_⟩
  · intro u; rw [heq]; exact hm u
  · rw [heq]; exact hnd
  · rw [(mainDownloadLoop_log ok urls).1, heq]; exact hnd

/-- C4 counterexample: a URL whose download fails is passed to
download_image exactly once — there is no retry loop.  With an oracle that
always fails and the single URL "u", the URL lands in the failure list while
the call log records exactly one attempt. -/
theorem download_no_retry_counterexample :
    "u" ∈ (mainDownloadLoop (fun _ => false) ["u"]).failures
    ∧ (mainDownloadLoop (fun _ => false) ["u"]).callLog.count "u" = 1 := by
  constructor
  · simp [mainDownloadLoop, iterate_urls, iterateUrlsGo]
  · rfl

/-- C4 amended: the download script loops over the distinct URLs, attempting
each exactly once; a URL whose download fails is recorded in the failure
list after that single attempt. -/
theorem download_single_attempt (ok : String → Bool) (urls : List String)
    (u : String) (h : u ∈ urls) :
    (mainDownloadLoop ok urls).callLog.count u = 1
    ∧ (ok u = false → u ∈ (mainDownloadLoop ok urls).failures) := by
  obtain ⟨hlog, hfail⟩ := mainDownloadLoop_log ok urls
  obtain ⟨_, hm, hnd, _⟩ := iterate_urls_spec ok urls
  have hmem : u ∈ iterate_urls urls := (hm u).mpr h
  constructor
  · rw [hlog]
    exact List.count_eq_one_of_mem hnd hmem
  · intro hfalse
    rw [hfail]
    exact List.mem_filter.mpr ⟨hmem, by simp [hfalse]⟩

/-- C4 amended witness at a concrete run: the URL "a" of the list ["a"] is
attempted once, and with an always-failing oracle it is recorded failed. -/
theorem download_single_attempt_witness :
    (mainDownloadLoop (fun _ => false) ["a"]).callLog.count "a" = 1
    ∧ ((fun _ : String => false) "a" = false →
        "a" ∈ (mainDownloadLoop (fun _ => false) ["a"]).failures) :=
  download_single_attempt (fun _ => false) ["a"] "a" (List.mem_singleton.mpr rfl)

/-- C1 counterexample: decode_tile does not return the encounter-ordered
layer sequence — it returns a name-keyed mapping.  The buffer below carries
two repeated Layer fields (both named "a", byte 97): the encounter-ordered
sequence has two layers, but decode_tile collapses them into a single
dictionary entry, so the result is not one layer per encountered Layer
field. -/
theorem decode_tile_not_a_sequence :
    decodeTileLayers [26, 3, 10, 1, 97, 26, 3, 10, 1, 97]
      = .ok [⟨[97], 1, 4096, [], [], []⟩, ⟨[97], 1, 4096, [], [], []⟩]
    ∧ decode_tile [26, 3, 10, 1, 97, 26, 3, 10, 1, 97]
      = .ok [([97], ⟨[97], 1, 4096, [], [], []⟩)] :=
  ⟨rfl, rfl⟩

/-- Inserting a fresh key appends at the end of the dictionary. -/
theorem dictInsert_of_not_mem {α β : Type} [DecidableEq α]
    (d : List (α × β)) (k : α) (v : β) (h : k ∉ d.map Prod.fst) :
    dictInsert d k v = d ++ [(k, v)] := by
  induction d with
  | nil => rfl
  | cons p rest ih =>
    rw [dictInsert]
    rw [List.map_cons, List.mem_cons] at h
    push_neg at h
    rw [if_neg (fun hk => h.1 hk.symm), ih h.2]
    simp

/-- Folding dictInsert over layers with pairwise-distinct names appends each
layer in order after the accumulated dictionary. -/
theorem layersToDict_nodup_aux :
    ∀ (ls : List LayerRec) (d : List (List Nat × LayerRec)),
      (∀ l ∈ ls, l.name ∉ d.map Prod.fst) →
      (ls.map LayerRec.name).Nodup →
      ls.foldl (fun d l => dictInsert d l.name l) d = d ++ ls.map fun l => (l.name, l) := by
  intro ls
  induction ls with
  | nil => intro d _ _; simp
  | cons l rest ih =>
    intro d hd hnd
    rw [List.foldl_cons, dictInsert_of_not_mem _ _ _ (hd l (List.mem_cons_self _ _))]
    rw [List.map_cons, List.nodup_cons] at hnd
    rw [ih (d ++ [(l.name, l)]) ?_ hnd.2]
    · simp
    · intro l2 hl2
      rw [List.map_append, List.mem_append]
      push_neg
      refine ⟨hd l2 (List.mem_cons_of_mem _ hl2), ?_⟩
      simp only [List.map_cons, List.map_nil, List.mem_singleton]
      intro hname
      exact hnd.1 (hname ▸ List.mem_map_of_mem LayerRec.name hl2)

/-- C1 amended: decode_tile returns the decoded layers as an
insertion-ordered name-keyed mapping (a Python dict keyed by layer name, per
the Dict annotation of decode_tile and the tile.items() iteration of its
consumers); when the layer names of the buffer are pairwise distinct, the
mapping lists one entry per repeated Layer field in buffer encounter
order.  Layers repeating an earlier name collapse into one entry (the
counterexample above). -/
theorem decode_tile_dict_order (buf : List Nat) (ls : List LayerRec)
    (hdec : decodeTileLayers buf = .ok ls)
    (hnd : (ls.map LayerRec.name).Nodup) :
    decode_tile buf = .ok (ls.map fun l => (l.name, l)) := by
  rw [decode_tile, hdec,
    show Except.map layersToDict (Except.ok ls)
      = (Except.ok (layersToDict ls) : Except DecodeError _) from rfl]
  rw [layersToDict, layersToDict_nodup_aux ls [] (by simp) hnd]
  rfl

/-- C1 amended witness: a buffer with two distinctly named layers ("a" and
"b") decodes to the two dictionary entries in encounter order. -/
theorem decode_tile_dict_order_witness :
    decode_tile [26, 3, 10, 1, 97, 26, 3, 10, 1, 98]
      = .ok ([⟨[97], 1, 4096, [], [], []⟩, ⟨[98], 1, 4096, [], [], []⟩].map
          fun l => (l.name, l)) :=
  decode_tile_dict_order [26, 3, 10, 1, 97, 26, 3, 10, 1, 98]
    [⟨[97], 1, 4096, [], [], []⟩, ⟨[98], 1, 4096, [], [], []⟩] rfl (by decide)

/-- The minimal varint encoding of a value below 2 to the 7(k+1) takes at
most k+1 bytes. -/
theorem encode_varint_length_le :
    ∀ (k v : Nat), v < 2 ^ (7 * (k + 1)) → (encode_varint v).length ≤ k + 1 := by
  intro k
  induction k with
  | zero =>
    intro v hv
    rw [encode_varint]
    rw [dif_pos (by omega : v < 128)]
    simp
  | succ k ih =>
    intro v hv
    rw [encode_varint]
    by_cases h128 : v < 128
    · rw [dif_pos h128]; simp
    · rw [dif_neg h128]
      have hdiv : v / 128 < 2 ^ (7 * (k + 1)) := by
        rw [Nat.div_lt_iff_lt_mul (by omega : 0 < 128)]
        calc v < 2 ^ (7 * (k + 2)) := hv
        _ = 2 ^ (7 * (k + 1)) * 128 := by ring
      have := ih (v / 128) hdiv
      simp only [List.length_cons]
      omega

/-- Reading back a minimal varint encoding recovers the value, shifted into
the accumulator, and leaves the reader exactly past the encoding. -/
theorem readVarintAux_encode :
    ∀ (v fuel shift acc off : Nat) (rest : List Nat),
      (encode_varint v).length ≤ fuel →
      readVarintAux fuel ⟨encode_varint v ++ rest, off⟩ shift acc
        = .ok (acc + v * 2 ^ shift, ⟨rest, off + (encode_varint v).length⟩) := by
  intro v
  induction v using Nat.strong_induction_on with
  | _ v ih =>
    intro fuel shift acc off rest hfuel
    by_cases h128 : v < 128
    · rw [encode_varint, dif_pos h128] at hfuel ⊢
      match fuel, hfuel with
      | fuel + 1, _ =>
        rw [List.singleton_append, readVarintAux]
        simp only [if_pos h128]
        simp
    · rw [encode_varint, dif_neg h128] at hfuel ⊢
      match fuel, hfuel with
      | fuel + 1, hfuel =>
        rw [List.cons_append, readVarintAux]
        simp only
        rw [if_neg (by omega : ¬v % 128 + 128 < 128)]
        have hlt : v / 128 < v := Nat.div_lt_self (by omega) (by omega)
        have hf : (encode_varint (v / 128)).length ≤ fuel := by
          simp only [List.length_cons] at hfuel
          omega
        rw [ih (v / 128) hlt fuel (shift + 7) (acc + (v % 128 + 128) % 128 * 2 ^ shift)
          (off + 1) rest hf]
        have hmod : (v % 128 + 128) % 128 = v % 128 := by omega
        rw [hmod]
        have harith : acc + v % 128 * 2 ^ shift + v / 128 * 2 ^ (shift + 7)
            = acc + v * 2 ^ shift := by
          rw [pow_add]
          have : v % 128 * 2 ^ shift + v / 128 * (2 ^ shift * 2 ^ 7)
              = (v % 128 + 128 * (v / 128)) * 2 ^ shift := by ring
          rw [Nat.add_assoc, this, Nat.mod_add_div]
        rw [harith]
        simp only [List.length_cons]
        have hoff : off + 1 + (encode_varint (v / 128)).length
            = off + ((encode_varint (v / 128)).length + 1) := by omega
        rw [hoff]

/-- C8: for every unsigned value below 2 to the 64, reading the varint
encoding of v with read_varint yields v back and consumes exactly the
encoding (the varint round-trip law of spec section 8). -/
theorem read_varint_roundtrip (v : Nat) (rest : List Nat) (off : Nat)
    (h : v < 2 ^ 64) :
    read_varint ⟨encode_varint v ++ rest, off⟩
      = .ok (v, ⟨rest, off + (encode_varint v).length⟩) := by
  have hlen : (encode_varint v).length ≤ 10 := by
    refine encode_varint_length_le 9 v ?_
    calc v < 2 ^ 64 := h
    _ ≤ 2 ^ (7 * 10) := Nat.pow_le_pow_right (by omega) (by omega)
  have := readVarintAux_encode v 10 0 0 off rest hlen
  rw [read_varint, this]
  simp

/-- C8 witness: the round-trip law at the concrete value 300, whose encoding
takes two bytes. -/
theorem read_varint_roundtrip_witness :
    read_varint ⟨encode_varint 300 ++ [7], 5⟩
      = .ok (300, ⟨[7], 5 + (encode_varint 300).length⟩) :=
  read_varint_roundtrip 300 [7] 5 (by norm_num)

/-- splitSlash always yields at least one component. -/
theorem splitSlash_ne_nil (s : List Nat) : splitSlash s ≠ [] := by
  cases s with
  | nil => simp [splitSlash]
  | cons b rest =>
    rw [splitSlash]
    split
    · simp
    · split <;> simp

/-- No component produced by splitSlash contains the slash byte. -/
theorem splitSlash_no_slash (s : List Nat) :
    ∀ c ∈ splitSlash s, 47 ∉ c := by
  induction s with
  | nil =>
    intro c hc
    rw [splitSlash, List.mem_singleton] at hc
    subst hc
    simp
  | cons b rest ih =>
    intro c hc
    rw [splitSlash] at hc
    by_cases hb : b = 47
    · rw [if_pos hb, List.mem_cons] at hc
      rcases hc with h | h
      · subst h; simp
      · exact ih c h
    · rw [if_neg hb] at hc
      rcases hsp : splitSlash rest with _ | ⟨s0, ss⟩
      · exact absurd hsp (splitSlash_ne_nil rest)
      · rw [hsp, List.mem_cons] at hc
        rcases hc with h | h
        · subst h
          intro hmem
          rcases List.mem_cons.mp hmem with h47 | h47
          · exact hb h47.symm
          · exact ih s0 (hsp ▸ List.mem_cons_self _ _) h47
        · exact ih c (hsp ▸ List.mem_cons_of_mem _ h)

/-- The last element of a getLast? is a member. -/
theorem mem_of_getLast?_eq {α : Type} {l : List α} {a : α}
    (h : l.getLast? = some a) : a ∈ l := by
  induction l with
  | nil => simp at h
  | cons x rest ih =>
    cases rest with
    | nil =>
      simp only [List.getLast?_singleton, Option.some.injEq] at h
      simp [h]
    | cons y t =>
      rw [List.getLast?_cons_cons] at h
      exact List.mem_cons_of_mem _ (ih h)

/-- The final path component contains no slash. -/
theorem pathName_no_slash (s : List Nat) : 47 ∉ pathName s := by
  have hsub : ∀ (l : List (List Nat)), (∀ c ∈ l, 47 ∉ c) → 47 ∉ (l.getLast?).getD [] := by
    intro l hl
    cases hg : l.getLast? with
    | none => simp
    | some c => simpa using hl c (mem_of_getLast?_eq hg)
  exact hsub _ fun c hc => splitSlash_no_slash s c (List.mem_of_mem_filter hc)

/-- ASCII lower-casing distributes over append. -/
theorem pyLower_append (a b : List Nat) :
    pyLower (a ++ b) = pyLower a ++ pyLower b :=
  List.map_append _ a b

/-- The computed output filename always ends with .png case-insensitively
and contains no slash. -/
theorem outputName_spec (nameField : Option (List Nat)) :
    (strBytes ".png").isSuffixOf (pyLower (outputName nameField)) = true
    ∧ 47 ∉ outputName nameField := by
  have key : ∀ pn : List Nat, 47 ∉ pn →
      ((strBytes ".png").isSuffixOf (pyLower
          (if (strBytes ".png").isSuffixOf (pyLower pn) then pn
           else pn ++ strBytes ".png")) = true
        ∧ 47 ∉ (if (strBytes ".png").isSuffixOf (pyLower pn) then pn
           else pn ++ strBytes ".png")) := by
    intro pn hnos
    by_cases hs : (strBytes ".png").isSuffixOf (pyLower pn) = true
    · rw [if_pos hs]
      exact ⟨hs, hnos⟩
    · rw [if_neg hs]
      constructor
      · rw [List.isSuffixOf_iff_suffix, pyLower_append,
          show pyLower (strBytes ".png") = strBytes ".png" from rfl]
        exact List.suffix_append _ _
      · intro hmem
        rcases List.mem_append.mp hmem with h | h
        · exact hnos h
        · simp [strBytes] at h
  rcases nameField with _ | s
  · exact key (pathName (strBytes "image.png")) (pathName_no_slash _)
  · rcases s with _ | ⟨b, bs⟩
    · exact key (pathName (strBytes "image.png")) (pathName_no_slash _)
    · exact key (pathName (b :: bs)) (pathName_no_slash _)

/-- C10: whenever decode_entry succeeds, the returned output filename ends
with .png case-insensitively (appended when missing) and contains no
directory components (no slash survives pathlib's final-component
extraction), so the extracted file lands directly inside the output
directory. -/
theorem decode_entry_filename (b64decode : List Nat → Option (List Nat))
    (nameField dataField : Option (List Nat)) (fname decoded : List Nat)
    (h : decode_entry b64decode nameField dataField = some (fname, decoded)) :
    (strBytes ".png").isSuffixOf (pyLower fname) = true ∧ 47 ∉ fname := by
  have hname : fname = outputName nameField := by
    rw [decode_entry] at h
    rcases hb : b64decode (match decode_entry.splitEq1 44 (dataField.getD []) with
      | some p => p.2
      | none => dataField.getD []) with _ | d
    · rw [hb] at h
      simp [Option.map] at h
    · rw [hb] at h
      simp only [Option.map, Option.some.injEq, Prod.mk.injEq] at h
      exact h.1.symm
  rw [hname]
  exact outputName_spec nameField

/-- C10 witness: with an identity base64 decoder and an entry with no name
and no data field, decode_entry succeeds and the filename properties hold at
the default image.png. -/
theorem decode_entry_filename_witness :
    (strBytes ".png").isSuffixOf (pyLower (strBytes "image.png")) = true
    ∧ 47 ∉ strBytes "image.png" :=
  decode_entry_filename (fun l => some l) none none (strBytes "image.png") [] rfl

/-- Hex digits produced by the percent-encoder decode back to their value
and are recognised as hex digits. -/
theorem hexDigit_spec (n : Nat) (h : n < 16) :
    isHexDigit (hexDigit n) = true ∧ hexVal (hexDigit n) = n := by
  unfold isHexDigit hexDigit hexVal
  by_cases h10 : n < 10
  · rw [if_pos h10, if_pos (by omega : n + 48 ≤ 57)]
    constructor
    · simp only [Bool.or_eq_true, Bool.and_eq_true, decide_eq_true_eq]
      omega
    · omega
  · rw [if_neg h10, if_neg (by omega : ¬n + 55 ≤ 57), if_pos (by omega : n + 55 ≤ 70)]
    constructor
    · simp only [Bool.or_eq_true, Bool.and_eq_true, decide_eq_true_eq]
      omega
    · omega

/-- Bytes produced by the percent-encoder hex digits lie in the letter and
digit ranges, away from the query separators and escape markers. -/
theorem hexDigit_ranges (n : Nat) (h : n < 16) :
    48 ≤ hexDigit n ∧ (hexDigit n ≤ 57 ∨ 65 ≤ hexDigit n ∧ hexDigit n ≤ 70) := by
  unfold hexDigit
  by_cases h10 : n < 10
  · rw [if_pos h10]; omega
  · rw [if_neg h10]; omega

/-- A byte the quoter leaves bare is none of the separator or marker
bytes. -/
theorem alwaysSafe_ne (b : Nat) (h : alwaysSafe b = true) :
    b ≠ 38 ∧ b ≠ 61 ∧ b ≠ 43 ∧ b ≠ 37 ∧ b ≠ 32 := by
  unfold alwaysSafe at h
  simp only [Bool.or_eq_true, Bool.and_eq_true, decide_eq_true_eq] at h
  omega

/-- The quoted form of a byte string of bytes below 256 contains neither the
ampersand nor the equals sign. -/
theorem quote_plus_sep_free :
    ∀ s : List Nat, (∀ b ∈ s, b < 256) →
      ∀ x ∈ quote_plus s, x ≠ 38 ∧ x ≠ 61 := by
  intro s
  induction s with
  | nil => intro _ x hx; simp [quote_plus] at hx
  | cons b rest ih =>
    intro hs x hx
    have hb : b < 256 := hs b (List.mem_cons_self _ _)
    have hrest : ∀ b1 ∈ rest, b1 < 256 := fun b1 h1 => hs b1 (List.mem_cons_of_mem _ h1)
    rw [quote_plus, List.mem_append] at hx
    rcases hx with hx | hx
    · by_cases hsafe : alwaysSafe b = true
      · rw [if_pos hsafe, List.mem_singleton] at hx
        obtain ⟨h38, h61, -, -, -⟩ := alwaysSafe_ne b hsafe
        omega
      · rw [if_neg hsafe] at hx
        by_cases h32 : b = 32
        · rw [if_pos h32, List.mem_singleton] at hx
          omega
        · rw [if_neg h32] at hx
          have hd1 := hexDigit_ranges (b / 16) (by omega)
          have hd2 := hexDigit_ranges (b % 16) (by omega)
          simp only [List.mem_cons, List.not_mem_nil, or_false] at hx
          rcases hx with h | h | h <;> omega
    · exact ih hrest x hx

/-- Unfolding of the percent-decoder at an ordinary byte. -/
theorem unquote_plus_cons_other (b : Nat) (l : List Nat)
    (h43 : b ≠ 43) (h37 : b ≠ 37) :
    unquote_plus (b :: l) = b :: unquote_plus l := by
  rw [unquote_plus.eq_def]
  dsimp only
  rw [if_neg h43, if_neg h37]

/-- Unfolding of the percent-decoder at a plus byte. -/
theorem unquote_plus_cons_plus (l : List Nat) :
    unquote_plus (43 :: l) = 32 :: unquote_plus l := by
  rw [unquote_plus.eq_def]
  dsimp only
  rw [if_pos rfl]

/-- Unfolding of the percent-decoder at a valid percent escape. -/
theorem unquote_plus_cons_escape (h1 h2 : Nat) (l : List Nat)
    (hh : (isHexDigit h1 && isHexDigit h2) = true) :
    unquote_plus (37 :: h1 :: h2 :: l)
      = (hexVal h1 * 16 + hexVal h2) :: unquote_plus l := by
  rw [unquote_plus.eq_def]
  dsimp only
  rw [if_neg (by omega : ¬(37 : Nat) = 43), if_pos rfl, if_pos hh]

/-- Percent-decoding inverts percent-encoding on byte strings of bytes below
256 (the quote_plus and unquote_plus round trip). -/
theorem unquote_plus_quote_plus :
    ∀ s : List Nat, (∀ b ∈ s, b < 256) →
      unquote_plus (quote_plus s) = s := by
  intro s
  induction s with
  | nil => intro _; simp [quote_plus, unquote_plus]
  | cons b rest ih =>
    intro hs
    have hb : b < 256 := hs b (List.mem_cons_self _ _)
    have hrest : ∀ b1 ∈ rest, b1 < 256 := fun b1 h1 => hs b1 (List.mem_cons_of_mem _ h1)
    rw [quote_plus]
    by_cases hsafe : alwaysSafe b = true
    · rw [if_pos hsafe, List.singleton_append]
      obtain ⟨_, _, h43, h37, _⟩ := alwaysSafe_ne b hsafe
      rw [unquote_plus_cons_other b _ h43 h37, ih hrest]
    · rw [if_neg hsafe]
      by_cases h32 : b = 32
      · rw [if_pos h32, List.singleton_append, unquote_plus_cons_plus, ih hrest, h32]
      · rw [if_neg h32, List.cons_append, List.cons_append, List.cons_append,
          List.nil_append]
        obtain ⟨hh1, hv1⟩ := hexDigit_spec (b / 16) (by omega)
        obtain ⟨hh2, hv2⟩ := hexDigit_spec (b % 16) (by omega)
        rw [unquote_plus_cons_escape _ _ _ (by rw [hh1, hh2]; rfl), hv1, hv2, ih hrest,
          show b / 16 * 16 + b % 16 = b from by omega]

/-- Splitting at the first equals sign after an equals-free head recovers
the two halves. -/
theorem splitEq_of_append (a c : List Nat) (ha : 61 ∉ a) :
    splitEq (a ++ 61 :: c) = some (a, c) := by
  induction a with
  | nil => rw [List.nil_append, splitEq, if_pos rfl]
  | cons x a1 ih =>
    have hx : x ≠ 61 := fun h => ha (h ▸ List.mem_cons_self _ _)
    rw [List.cons_append, splitEq, if_neg hx,
      ih fun h => ha (List.mem_cons_of_mem _ h)]
    rfl

/-- A byte string without ampersands splits into itself. -/
theorem splitAmp_of_no_sep (s : List Nat) (h : 38 ∉ s) : splitAmp s = [s] := by
  induction s with
  | nil => rfl
  | cons b rest ih =>
    have hb : b ≠ 38 := fun hb => h (hb ▸ List.mem_cons_self _ _)
    rw [splitAmp, if_neg hb, ih fun h1 => h (List.mem_cons_of_mem _ h1)]

/-- Splitting after an ampersand-free head peels off that head. -/
theorem splitAmp_append (s t : List Nat) (h : 38 ∉ s) :
    splitAmp (s ++ 38 :: t) = s :: splitAmp t := by
  induction s with
  | nil => rw [List.nil_append, splitAmp, if_pos rfl]
  | cons b s1 ih =>
    have hb : b ≠ 38 := fun hb => h (hb ▸ List.mem_cons_self _ _)
    rw [List.cons_append, splitAmp, if_neg hb,
      ih fun h1 => h (List.mem_cons_of_mem _ h1)]

/-- Splitting on ampersands inverts joining ampersand-free pieces. -/
theorem splitAmp_joinAmp :
    ∀ segs : List (List Nat), segs ≠ [] → (∀ s ∈ segs, 38 ∉ s) →
      splitAmp (joinAmp segs) = segs := by
  intro segs
  induction segs with
  | nil => intro h; exact absurd rfl h
  | cons s rest ih =>
    intro _ hfree
    cases rest with
    | nil =>
      rw [joinAmp]
      exact splitAmp_of_no_sep s (hfree s (List.mem_cons_self _ _))
    | cons s2 rest2 =>
      have hne : s2 :: rest2 ≠ [] := List.cons_ne_nil s2 rest2
      rw [joinAmp, splitAmp_append s _ (hfree s (List.mem_cons_self _ _)),
        ih hne fun x hx => hfree x (List.mem_cons_of_mem _ hx)]
      exact fun h => hne h

/-- An encoded name-value piece is never empty and contains no
ampersand. -/
theorem enc_piece_free (k v : List Nat) (hk : ∀ b ∈ k, b < 256)
    (hv : ∀ b ∈ v, b < 256) :
    38 ∉ quote_plus k ++ 61 :: quote_plus v := by
  intro hmem
  rcases List.mem_append.mp hmem with h | h
  · exact (quote_plus_sep_free k hk 38 h).1 rfl
  · rcases List.mem_cons.mp h with h | h
    · omega
    · exact (quote_plus_sep_free v hv 38 h).1 rfl

/-- Parsing an encoded name-value piece recovers the decoded pair. -/
theorem parsePiece_enc (k v : List Nat) (hk : ∀ b ∈ k, b < 256)
    (hv : ∀ b ∈ v, b < 256) :
    parsePiece (quote_plus k ++ 61 :: quote_plus v) = some (k, v) := by
  rw [parsePiece,
    if_neg (by simp : ¬(quote_plus k ++ 61 :: quote_plus v) = []),
    splitEq_of_append _ _ fun h => (quote_plus_sep_free k hk 61 h).2 rfl]
  show some (unquote_plus (quote_plus k), unquote_plus (quote_plus v)) = some (k, v)
  rw [unquote_plus_quote_plus k hk, unquote_plus_quote_plus v hv]

/-- parse_qsl inverts urlencode on pairs of byte strings of bytes below 256
(the decoded-parameter round trip of the query rewriting). -/
theorem parse_qsl_urlencode :
    ∀ pairs : List (List Nat × List Nat),
      (∀ p ∈ pairs, (∀ b ∈ p.1, b < 256) ∧ (∀ b ∈ p.2, b < 256)) →
      parse_qsl (urlencode pairs) = pairs := by
  intro pairs hb
  cases hps : pairs with
  | nil => rfl
  | cons p0 rest0 =>
    rw [← hps, parse_qsl, urlencode,
      splitAmp_joinAmp _ (by rw [hps]; simp) ?hfree, List.filterMap_map]
    case hfree =>
      intro s hs
      rw [List.mem_map] at hs
      obtain ⟨q, hq, rfl⟩ := hs
      exact enc_piece_free q.1 q.2 (hb q hq).1 (hb q hq).2
    have : ∀ qs : List (List Nat × List Nat),
        (∀ p ∈ qs, (∀ b ∈ p.1, b < 256) ∧ (∀ b ∈ p.2, b < 256)) →
        qs.filterMap (fun q => parsePiece (quote_plus q.1 ++ 61 :: quote_plus q.2)) = qs := by
      intro qs
      induction qs with
      | nil => intro _; rfl
      | cons q qs1 ih =>
        intro hq
        rw [List.filterMap_cons,
          parsePiece_enc q.1 q.2 (hq q (List.mem_cons_self _ _)).1
            (hq q (List.mem_cons_self _ _)).2,
          ih fun r hr => hq r (List.mem_cons_of_mem _ hr)]
    exact this pairs hb

/-- Unfolding of the percent-decoder at a lone trailing percent. -/
theorem unquote_plus_percent_nil : unquote_plus [37] = [37] := by
  rw [unquote_plus.eq_def]
  dsimp only
  rw [if_neg (by omega : ¬(37 : Nat) = 43), if_pos rfl]

/-- Unfolding of the percent-decoder at a percent followed by one byte. -/
theorem unquote_plus_percent_one (h1 : Nat) :
    unquote_plus [37, h1] = 37 :: unquote_plus [h1] := by
  rw [unquote_plus.eq_def]
  dsimp only
  rw [if_neg (by omega : ¬(37 : Nat) = 43), if_pos rfl]

/-- Unfolding of the percent-decoder at an invalid percent escape. -/
theorem unquote_plus_percent_bad (h1 h2 : Nat) (l : List Nat)
    (hh : (isHexDigit h1 && isHexDigit h2) = false) :
    unquote_plus (37 :: h1 :: h2 :: l) = 37 :: unquote_plus (h1 :: h2 :: l) := by
  rw [unquote_plus.eq_def]
  dsimp only
  rw [if_neg (by omega : ¬(37 : Nat) = 43), if_pos rfl, if_neg (by rw [hh]; simp)]

/-- The value of a hex digit byte is below 16. -/
theorem hexVal_le (b : Nat) (h : isHexDigit b = true) : hexVal b ≤ 15 := by
  unfold isHexDigit at h
  unfold hexVal
  simp only [Bool.or_eq_true, Bool.and_eq_true, decide_eq_true_eq] at h
  split_ifs <;> omega

/-- Percent-decoding yields bytes below 256 when its input has bytes below
256. -/
theorem unquote_plus_lt :
    ∀ (N : Nat) (s : List Nat), s.length ≤ N → (∀ b ∈ s, b < 256) →
      ∀ x ∈ unquote_plus s, x < 256 := by
  intro N
  induction N with
  | zero =>
    intro s hl _ x hx
    have : s = [] := List.length_eq_zero.mp (Nat.le_antisymm hl (Nat.zero_le _))
    subst this
    simp [unquote_plus] at hx
  | succ N ih =>
    intro s hl hs x hx
    cases s with
    | nil => simp [unquote_plus] at hx
    | cons b rest =>
      have hrest : ∀ b1 ∈ rest, b1 < 256 := fun b1 h1 => hs b1 (List.mem_cons_of_mem _ h1)
      have hlen : rest.length ≤ N := by
        simp only [List.length_cons] at hl
        omega
      by_cases hb43 : b = 43
      · subst hb43
        rw [unquote_plus_cons_plus] at hx
        rcases List.mem_cons.mp hx with h | h
        · omega
        · exact ih rest hlen hrest x h
      · by_cases hb37 : b = 37
        · subst hb37
          cases rest with
          | nil =>
            rw [unquote_plus_percent_nil] at hx
            rcases List.mem_singleton.mp hx with rfl
            omega
          | cons h1 rest1 =>
            cases rest1 with
            | nil =>
              rw [unquote_plus_percent_one] at hx
              rcases List.mem_cons.mp hx with h | h
              · omega
              · refine ih [h1] (by simp only [List.length_cons] at hl ⊢; omega) ?_ x h
                intro b1 hb1
                exact hs b1 (List.mem_cons_of_mem _ (List.mem_singleton.mp hb1 ▸
                  List.mem_cons_self _ _))
            | cons h2 rest2 =>
              by_cases hh : (isHexDigit h1 && isHexDigit h2) = true
              · rw [unquote_plus_cons_escape _ _ _ hh] at hx
                rcases List.mem_cons.mp hx with h | h
                · have hv1 := hexVal_le h1 (by revert hh; simp +contextual)
                  have hv2 := hexVal_le h2 (by revert hh; simp +contextual)
                  omega
                · refine ih rest2 ?_ ?_ x h
                  · simp only [List.length_cons] at hl
                    omega
                  · intro b1 hb1
                    exact hrest b1 (List.mem_cons_of_mem _ (List.mem_cons_of_mem _ hb1))
              · rw [unquote_plus_percent_bad _ _ _ (by simpa using hh)] at hx
                rcases List.mem_cons.mp hx with h | h
                · omega
                · exact ih (h1 :: h2 :: rest2) hlen hrest x h
        · rw [unquote_plus_cons_other b _ hb43 hb37] at hx
          rcases List.mem_cons.mp hx with h | h
          · exact h ▸ hs b (List.mem_cons_self _ _)
          · exact ih rest hlen hrest x h

/-- splitAmp always yields at least one piece. -/
theorem splitAmp_ne_nil (s : List Nat) : splitAmp s ≠ [] := by
  cases s with
  | nil => simp [splitAmp]
  | cons b rest =>
    rw [splitAmp]
    split
    · simp
    · split <;> simp

/-- Every byte of every splitAmp piece is a byte of the input. -/
theorem mem_splitAmp_sub :
    ∀ (s : List Nat) (c : List Nat), c ∈ splitAmp s → ∀ b ∈ c, b ∈ s := by
  intro s
  induction s with
  | nil =>
    intro c hc b hb
    rw [splitAmp, List.mem_singleton] at hc
    subst hc
    simp at hb
  | cons b0 rest ih =>
    intro c hc b hb
    rw [splitAmp] at hc
    by_cases h38 : b0 = 38
    · rw [if_pos h38] at hc
      rcases List.mem_cons.mp hc with h | h
      · subst h; simp at hb
      · exact List.mem_cons_of_mem _ (ih c h b hb)
    · rw [if_neg h38] at hc
      rcases hsp : splitAmp rest with _ | ⟨s0, ss⟩
      · exact absurd hsp (splitAmp_ne_nil rest)
      · rw [hsp] at hc
        rcases List.mem_cons.mp hc with h | h
        · subst h
          rcases List.mem_cons.mp hb with h1 | h1
          · exact h1 ▸ List.mem_cons_self _ _
          · exact List.mem_cons_of_mem _
              (ih s0 (hsp ▸ List.mem_cons_self _ _) b h1)
        · exact List.mem_cons_of_mem _ (ih c (hsp ▸ List.mem_cons_of_mem _ h) b hb)

/-- Every byte of either half of a splitEq split is a byte of the input. -/
theorem splitEq_sub :
    ∀ (nv k v : List Nat), splitEq nv = some (k, v) →
      (∀ b ∈ k, b ∈ nv) ∧ (∀ b ∈ v, b ∈ nv) := by
  intro nv
  induction nv with
  | nil => intro k v h; simp [splitEq] at h
  | cons b0 rest ih =>
    intro k v h
    rw [splitEq] at h
    by_cases h61 : b0 = 61
    · rw [if_pos h61] at h
      obtain ⟨rfl, rfl⟩ := Prod.mk.injEq .. ▸ Option.some.injEq .. ▸ h
      constructor
      · intro b hb; simp at hb
      · intro b hb; exact List.mem_cons_of_mem _ hb
    · rw [if_neg h61] at h
      rcases hsp : splitEq rest with _ | ⟨k1, v1⟩
      · rw [hsp] at h; simp [Option.map] at h
      · rw [hsp] at h
        simp only [Option.map, Option.some.injEq, Prod.mk.injEq] at h
        obtain ⟨hk, hv⟩ := h
        obtain ⟨hk1, hv1⟩ := ih k1 v1 hsp
        constructor
        · intro b hb
          rw [← hk] at hb
          rcases List.mem_cons.mp hb with h1 | h1
          · exact h1 ▸ List.mem_cons_self _ _
          · exact List.mem_cons_of_mem _ (hk1 b h1)
        · intro b hb
          exact List.mem_cons_of_mem _ (hv1 b (hv ▸ hb))

/-- Parameters decoded from a query of bytes below 256 have bytes below
256. -/
theorem parse_qsl_bytes_lt (q : List Nat) (hq : ∀ b ∈ q, b < 256) :
    ∀ p ∈ parse_qsl q, (∀ b ∈ p.1, b < 256) ∧ (∀ b ∈ p.2, b < 256) := by
  intro p hp
  rw [parse_qsl, List.mem_filterMap] at hp
  obtain ⟨nv, hnv, hparse⟩ := hp
  have hnvlt : ∀ b ∈ nv, b < 256 := fun b hb => hq b (mem_splitAmp_sub q nv hnv b hb)
  rw [parsePiece] at hparse
  by_cases hne : nv = []
  · rw [if_pos hne] at hparse; simp at hparse
  · rw [if_neg hne] at hparse
    rcases hsp : splitEq nv with _ | ⟨k, v⟩
    · rw [hsp] at hparse
      obtain rfl := (Option.some.injEq .. ▸ hparse).symm
      constructor
      · exact fun b hb => unquote_plus_lt nv.length nv le_rfl hnvlt b hb
      · intro b hb; simp at hb
    · rw [hsp] at hparse
      obtain rfl := (Option.some.injEq .. ▸ hparse).symm
      obtain ⟨hk, hv⟩ := splitEq_sub nv k v hsp
      constructor
      · exact fun b hb => unquote_plus_lt k.length k le_rfl
          (fun b1 h1 => hnvlt b1 (hk b1 h1)) b hb
      · exact fun b hb => unquote_plus_lt v.length v le_rfl
          (fun b1 h1 => hnvlt b1 (hv b1 h1)) b hb

/-- C3: for every URL (with byte-string query) and matched_choice true or
false, the rewritten URL's query holds exactly one filters[0] parameter,
whose decoded value is the matched predicate for that choice; every other
decoded query parameter of the input is preserved (same pairs, same order),
the other URL components are untouched; and with matched_choice any the
rewritten query holds no filters[0] parameter and preserves all other
parameters. -/
theorem adjust_matched_filter_spec (url : Url) (choice : List Nat)
    (hq : ∀ b ∈ url.query, b < 256)
    (hc : choice = strBytes "true" ∨ choice = strBytes "false") :
    ((parse_qsl (adjust_matched_filter url (some choice)).query).filter
        fun kv => kv.1 = filters0) = [(filters0, matchedValue choice)]
    ∧ ((parse_qsl (adjust_matched_filter url (some choice)).query).filter
        fun kv => kv.1 ≠ filters0)
      = ((parse_qsl url.query).filter fun kv => kv.1 ≠ filters0)
    ∧ (adjust_matched_filter url (some choice)).scheme = url.scheme
    ∧ (adjust_matched_filter url (some choice)).netloc = url.netloc
    ∧ (adjust_matched_filter url (some choice)).path = url.path
    ∧ (adjust_matched_filter url (some choice)).fragment = url.fragment
    ∧ parse_qsl (adjust_matched_filter url (some (strBytes "any"))).query
      = ((parse_qsl url.query).filter fun kv => kv.1 ≠ filters0) := by
  have hne : choice ≠ strBytes "any" := by
    rcases hc with rfl | rfl <;> decide
  have hbase := parse_qsl_bytes_lt url.query hq
  have hA : ∀ p ∈ (parse_qsl url.query).filter fun kv => kv.1 ≠ filters0,
      (∀ b ∈ p.1, b < 256) ∧ (∀ b ∈ p.2, b < 256) :=
    fun p hp => hbase p (List.mem_of_mem_filter hp)
  have hpair : (∀ b ∈ filters0, b < 256) ∧ (∀ b ∈ matchedValue choice, b < 256) := by
    rcases hc with rfl | rfl <;> exact ⟨by decide, by decide⟩
  have hout : adjust_matched_filter url (some choice)
      = ⟨url.scheme, url.netloc, url.path,
         urlencode (((parse_qsl url.query).filter fun kv => kv.1 ≠ filters0)
            ++ [(filters0, matchedValue choice)]), url.fragment⟩ := by
    simp only [adjust_matched_filter]
    rw [if_pos hne]
  have hout2 : adjust_matched_filter url (some (strBytes "any"))
      = ⟨url.scheme, url.netloc, url.path,
         urlencode ((parse_qsl url.query).filter fun kv => kv.1 ≠ filters0),
         url.fragment⟩ := by
    simp only [adjust_matched_filter]
    rw [if_neg (by simp)]
  have hrt : parse_qsl (urlencode
        (((parse_qsl url.query).filter fun kv => kv.1 ≠ filters0)
          ++ [(filters0, matchedValue choice)]))
      = ((parse_qsl url.query).filter fun kv => kv.1 ≠ filters0)
        ++ [(filters0, matchedValue choice)] := by
    apply parse_qsl_urlencode
    intro p hp
    rcases List.mem_append.mp hp with h | h
    · exact hA p h
    · rw [List.mem_singleton] at h
      subst h
      exact hpair
  have hrt2 : parse_qsl (urlencode
        ((parse_qsl url.query).filter fun kv => kv.1 ≠ filters0))
      = ((parse_qsl url.query).filter fun kv => kv.1 ≠ filters0) :=
    parse_qsl_urlencode _ hA
  refine ⟨?_, ?_, by rw [hout], by rw [hout], by rw [hout], by rw [hout], ?_⟩
  · rw [hout]
    dsimp only
    rw [hrt, List.filter_append]
    have h1 : ((parse_qsl url.query).filter fun kv => kv.1 ≠ filters0).filter
        (fun kv => kv.1 = filters0) = [] := by
      rw [List.filter_eq_nil_iff]
      intro p hp
      have := List.of_mem_filter hp
      simp only [decide_eq_true_eq] at this ⊢
      exact this
    have h2 : [(filters0, matchedValue choice)].filter (fun kv => kv.1 = filters0)
        = [(filters0, matchedValue choice)] := by
      simp [List.filter]
    rw [h1, h2, List.nil_append]
  · rw [hout]
    dsimp only
    rw [hrt, List.filter_append]
    have h3 : ((parse_qsl url.query).filter fun kv => kv.1 ≠ filters0).filter
        (fun kv => kv.1 ≠ filters0)
        = ((parse_qsl url.query).filter fun kv => kv.1 ≠ filters0) := by
      rw [List.filter_eq_self]
      intro p hp
      simpa using List.of_mem_filter hp
    have h4 : [(filters0, matchedValue choice)].filter (fun kv => kv.1 ≠ filters0)
        = [] := by
      simp [List.filter]
    rw [h3, h4, List.append_nil]
  · rw [hout2]
    dsimp only
    exact hrt2

/-- C3 witness: the specification of adjust_matched_filter evaluated at a
concrete URL whose query holds a parameter a=1, an encoded filters[0]
parameter, and a blank-valued parameter b, with choice false. -/
theorem adjust_matched_filter_spec_witness :
    ((parse_qsl (adjust_matched_filter
        ⟨strBytes "https", strBytes "h", strBytes "/p",
          strBytes "a=1&filters%5B0%5D=z&b=", []⟩
        (some (strBytes "false"))).query).filter
        fun kv => kv.1 = filters0) = [(filters0, matchedValue (strBytes "false"))]
    ∧ ((parse_qsl (adjust_matched_filter
        ⟨strBytes "https", strBytes "h", strBytes "/p",
          strBytes "a=1&filters%5B0%5D=z&b=", []⟩
        (some (strBytes "false"))).query).filter
        fun kv => kv.1 ≠ filters0)
      = ((parse_qsl (strBytes "a=1&filters%5B0%5D=z&b=")).filter
          fun kv => kv.1 ≠ filters0)
    ∧ (adjust_matched_filter
        ⟨strBytes "https", strBytes "h", strBytes "/p",
          strBytes "a=1&filters%5B0%5D=z&b=", []⟩
        (some (strBytes "false"))).scheme = strBytes "https"
    ∧ (adjust_matched_filter
        ⟨strBytes "https", strBytes "h", strBytes "/p",
          strBytes "a=1&filters%5B0%5D=z&b=", []⟩
        (some (strBytes "false"))).netloc = strBytes "h"
    ∧ (adjust_matched_filter
        ⟨strBytes "https", strBytes "h", strBytes "/p",
          strBytes "a=1&filters%5B0%5D=z&b=", []⟩
        (some (strBytes "false"))).path = strBytes "/p"
    ∧ (adjust_matched_filter
        ⟨strBytes "https", strBytes "h", strBytes "/p",
          strBytes "a=1&filters%5B0%5D=z&b=", []⟩
        (some (strBytes "false"))).fragment = []
    ∧ parse_qsl (adjust_matched_filter
        ⟨strBytes "https", strBytes "h", strBytes "/p",
          strBytes "a=1&filters%5B0%5D=z&b=", []⟩
        (some (strBytes "any"))).query
      = ((parse_qsl (strBytes "a=1&filters%5B0%5D=z&b=")).filter
          fun kv => kv.1 ≠ filters0) :=
  adjust_matched_filter_spec
    ⟨strBytes "https", strBytes "h", strBytes "/p",
      strBytes "a=1&filters%5B0%5D=z&b=", []⟩
    (strBytes "false") (by decide) (Or.inr rfl)

/-! ## Structured-error well-formedness of the tile decoder

The following predicates and lemmas establish, for every decoding function,
that a failure carries a non-empty human-readable message and a byte offset
inside the input buffer, and that readers only move forward inside the
buffer. -/

/-- The reader window lies inside the first N bytes of the input. -/
def ReaderBound (N : Nat) (r : Reader) : Prop := r.off + r.rem.length ≤ N

/-- A structured error is well formed for an N-byte input: non-empty
message, offset at most N. -/
def ErrOK (N : Nat) (e : DecodeError) : Prop := e.msg ≠ "" ∧ e.off ≤ N

/-- Well-formedness of a decoding step outcome: failures are well-formed
errors and successes satisfy P. -/
def ExceptWF (N : Nat) {α : Type} (P : α → Prop) : Except DecodeError α → Prop
  | .error e => ErrOK N e
  | .ok a => P a

/-- Extracts error well-formedness from an outcome. -/
theorem exceptWF_error {N : Nat} {α : Type} {P : α → Prop} {x : Except DecodeError α}
    (h : ExceptWF N P x) {e : DecodeError} (he : x = .error e) : ErrOK N e := by
  rw [he] at h
  exact h

/-- Extracts the success property from an outcome. -/
theorem exceptWF_ok {N : Nat} {α : Type} {P : α → Prop} {x : Except DecodeError α}
    (h : ExceptWF N P x) {a : α} (ha : x = .ok a) : P a := by
  rw [ha] at h
  exact h

/-- The reader offset itself is inside the buffer. -/
theorem ReaderBound.off_le {N : Nat} {r : Reader} (h : ReaderBound N r) : r.off ≤ N :=
  le_trans (Nat.le_add_right _ _) h

/-- Introduction form for error well-formedness. -/
theorem errOK_mk {N : Nat} {k : ErrKind} {m : String} {o : Nat}
    (hm : m ≠ "") (ho : o ≤ N) : ErrOK N ⟨k, m, o⟩ := ⟨hm, ho⟩

/-- Well-formedness of the varint reader loop. -/
theorem readVarintAux_wf (N : Nat) :
    ∀ (fuel : Nat) (r : Reader) (shift acc : Nat), ReaderBound N r →
      ExceptWF N (fun p => ReaderBound N p.2) (readVarintAux fuel r shift acc) := by
  intro fuel
  induction fuel with
  | zero =>
    intro r shift acc hr
    rw [readVarintAux]
    exact errOK_mk (by decide) hr.off_le
  | succ fuel ih =>
    intro r shift acc hr
    rw [readVarintAux]
    cases hrem : r.rem with
    | nil => exact errOK_mk (by decide) hr.off_le
    | cons b rest =>
      dsimp only
      have hlen : r.off + rest.length + 1 ≤ N := by
        unfold ReaderBound at hr
        rw [hrem, List.length_cons] at hr
        omega
      split
      · show ReaderBound N ⟨rest, r.off + 1⟩
        unfold ReaderBound
        simp only
        omega
      · exact ih ⟨rest, r.off + 1⟩ _ _ (by unfold ReaderBound; simp only; omega)

/-- Well-formedness of read_varint. -/
theorem read_varint_wf (N : Nat) (r : Reader) (hr : ReaderBound N r) :
    ExceptWF N (fun p => ReaderBound N p.2) (read_varint r) :=
  readVarintAux_wf N 10 r 0 0 hr

/-- Well-formedness of read_tag. -/
theorem read_tag_wf (N : Nat) (r : Reader) (hr : ReaderBound N r) :
    ExceptWF N (fun p => ReaderBound N p.2) (read_tag r) := by
  rw [read_tag]
  cases hv : read_varint r with
  | error e => exact exceptWF_error (read_varint_wf N r hr) hv
  | ok p =>
    have hp := exceptWF_ok (read_varint_wf N r hr) hv
    obtain ⟨v, r1⟩ := p
    dsimp only
    split
    · exact hp
    · exact hp
    · exact hp
    · exact hp
    · exact errOK_mk (by decide) hr.off_le

/-- Well-formedness of read_length_delimited: the sub-reader and the
continuation reader both stay in bounds. -/
theorem read_length_delimited_wf (N : Nat) (r : Reader) (hr : ReaderBound N r) :
    ExceptWF N (fun p => ReaderBound N p.1 ∧ ReaderBound N p.2)
      (read_length_delimited r) := by
  rw [read_length_delimited]
  cases hv : read_varint r with
  | error e => exact exceptWF_error (read_varint_wf N r hr) hv
  | ok p =>
    have hp := exceptWF_ok (read_varint_wf N r hr) hv
    obtain ⟨n, r1⟩ := p
    dsimp only at hp ⊢
    unfold ReaderBound at hp
    split
    · constructor
      · unfold ReaderBound
        simp only [List.length_take]
        omega
      · unfold ReaderBound
        simp only [List.length_drop]
        omega
    · exact errOK_mk (by decide) hr.off_le

/-- Well-formedness of readFixed. -/
theorem readFixed_wf (N : Nat) (n : Nat) (r : Reader) (hr : ReaderBound N r) :
    ExceptWF N (fun p => ReaderBound N p.2) (readFixed n r) := by
  rw [readFixed]
  unfold ReaderBound at hr
  split
  · show ReaderBound N ⟨r.rem.drop n, r.off + n⟩
    unfold ReaderBound
    simp only [List.length_drop]
    omega
  · exact errOK_mk (by decide) (by omega)

/-- Well-formedness of skip_field. -/
theorem skip_field_wf (N : Nat) (wt : WireType) (r : Reader) (hr : ReaderBound N r) :
    ExceptWF N (ReaderBound N) (skip_field wt r) := by
  cases wt with
  | varint =>
    rw [skip_field]
    cases hv : read_varint r with
    | error e => exact exceptWF_error (read_varint_wf N r hr) hv
    | ok p => exact exceptWF_ok (read_varint_wf N r hr) hv
  | fixed64 =>
    rw [skip_field]
    cases hv : readFixed 8 r with
    | error e => exact exceptWF_error (readFixed_wf N 8 r hr) hv
    | ok p => exact exceptWF_ok (readFixed_wf N 8 r hr) hv
  | lengthDelimited =>
    rw [skip_field]
    cases hv : read_length_delimited r with
    | error e => exact exceptWF_error (read_length_delimited_wf N r hr) hv
    | ok p => exact (exceptWF_ok (read_length_delimited_wf N r hr) hv).2
  | fixed32 =>
    rw [skip_field]
    cases hv : readFixed 4 r with
    | error e => exact exceptWF_error (readFixed_wf N 4 r hr) hv
    | ok p => exact exceptWF_ok (readFixed_wf N 4 r hr) hv

/-- Well-formedness of the Value submessage loop. -/
theorem decodeValueLoop_wf (N : Nat) :
    ∀ (fuel : Nat) (r : Reader) (acc : Option PropValue), ReaderBound N r →
      ExceptWF N (fun _ => True) (decodeValueLoop fuel r acc) := by
  intro fuel
  induction fuel with
  | zero =>
    intro r acc hr
    rw [decodeValueLoop]
    exact errOK_mk (by decide) hr.off_le
  | succ fuel ih =>
    intro r acc hr
    rw [decodeValueLoop]
    cases hrem : r.rem with
    | nil => trivial
    | cons b rest =>
      dsimp only
      cases htag : read_tag r with
      | error e => exact exceptWF_error (read_tag_wf N r hr) htag
      | ok p =>
        obtain ⟨⟨fieldNum, wt⟩, r1⟩ := p
        have hr1 : ReaderBound N r1 := exceptWF_ok (read_tag_wf N r hr) htag
        dsimp only
        split
        · cases hld : read_length_delimited r1 with
          | error e => exact exceptWF_error (read_length_delimited_wf N r1 hr1) hld
          | ok q =>
            obtain ⟨sub, r2⟩ := q
            obtain ⟨hsub, hr2⟩ := exceptWF_ok (read_length_delimited_wf N r1 hr1) hld
            dsimp only
            split
            · exact ih r2 _ hr2
            · exact errOK_mk (by decide) hsub.off_le
        · cases hf : readFixed 4 r1 with
          | error e => exact exceptWF_error (readFixed_wf N 4 r1 hr1) hf
          | ok q =>
            obtain ⟨bits, r2⟩ := q
            exact ih r2 _ (exceptWF_ok (readFixed_wf N 4 r1 hr1) hf)
        · cases hf : readFixed 8 r1 with
          | error e => exact exceptWF_error (readFixed_wf N 8 r1 hr1) hf
          | ok q =>
            obtain ⟨bits, r2⟩ := q
            exact ih r2 _ (exceptWF_ok (readFixed_wf N 8 r1 hr1) hf)
        · cases hv : read_varint r1 with
          | error e => exact exceptWF_error (read_varint_wf N r1 hr1) hv
          | ok q =>
            obtain ⟨v, r2⟩ := q
            exact ih r2 _ (exceptWF_ok (read_varint_wf N r1 hr1) hv)
        · cases hv : read_varint r1 with
          | error e => exact exceptWF_error (read_varint_wf N r1 hr1) hv
          | ok q =>
            obtain ⟨v, r2⟩ := q
            exact ih r2 _ (exceptWF_ok (read_varint_wf N r1 hr1) hv)
        · cases hv : read_varint r1 with
          | error e => exact exceptWF_error (read_varint_wf N r1 hr1) hv
          | ok q =>
            obtain ⟨v, r2⟩ := q
            exact ih r2 _ (exceptWF_ok (read_varint_wf N r1 hr1) hv)
        · cases hv : read_varint r1 with
          | error e => exact exceptWF_error (read_varint_wf N r1 hr1) hv
          | ok q =>
            obtain ⟨v, r2⟩ := q
            exact ih r2 _ (exceptWF_ok (read_varint_wf N r1 hr1) hv)
        · cases hsk : skip_field wt r1 with
          | error e => exact exceptWF_error (skip_field_wf N wt r1 hr1) hsk
          | ok r2 => exact ih r2 _ (exceptWF_ok (skip_field_wf N wt r1 hr1) hsk)

/-- Well-formedness of the Value decoder. -/
theorem decode_value_wf (N : Nat) (sub : Reader) (hr : ReaderBound N sub) :
    ExceptWF N (fun _ => True) (decode_value sub) :=
  decodeValueLoop_wf N _ sub none hr

/-- Well-formedness of the packed-varint reader. -/
theorem parsePackedVarints_wf (N : Nat) :
    ∀ (fuel : Nat) (r : Reader), ReaderBound N r →
      ExceptWF N (fun _ => True) (parsePackedVarints fuel r) := by
  intro fuel
  induction fuel with
  | zero =>
    intro r hr
    rw [parsePackedVarints]
    exact errOK_mk (by decide) hr.off_le
  | succ fuel ih =>
    intro r hr
    rw [parsePackedVarints]
    cases hrem : r.rem with
    | nil => trivial
    | cons b rest =>
      dsimp only
      cases hv : read_varint r with
      | error e => exact exceptWF_error (read_varint_wf N r hr) hv
      | ok q =>
        obtain ⟨v, r1⟩ := q
        have hr1 := exceptWF_ok (read_varint_wf N r hr) hv
        dsimp only
        cases hrec : parsePackedVarints fuel r1 with
        | error e => exact exceptWF_error (ih r1 hr1) hrec
        | ok vs => trivial

/-- Well-formedness of the coordinate-pair reader. -/
theorem readCoords_wf (N base : Nat) (hb : base ≤ N) :
    ∀ (k : Nat) (x y : Int) (s : List Nat),
      ExceptWF N (fun _ => True) (readCoords base k x y s) := by
  intro k
  induction k with
  | zero => intro x y s; trivial
  | succ k ih =>
    intro x y s
    rcases s with _ | ⟨dx, _ | ⟨dy, rest⟩⟩
    · exact errOK_mk (by decide) hb
    · exact errOK_mk (by decide) hb
    · rw [readCoords]
      cases hrec : readCoords base k (x + zigzagDecode dx) (y + zigzagDecode dy) rest with
      | error e => exact exceptWF_error (ih _ _ rest) hrec
      | ok q => obtain ⟨pts, x2, y2, s2⟩ := q; trivial

/-- Well-formedness of the geometry command parser. -/
theorem parseOps_wf (N base : Nat) (hb : base ≤ N) :
    ∀ (fuel : Nat) (x y : Int) (s : List Nat),
      ExceptWF N (fun _ => True) (parseOps base fuel x y s) := by
  intro fuel
  induction fuel with
  | zero =>
    intro x y s
    rcases s with _ | ⟨c, rest⟩
    · trivial
    · exact errOK_mk (by decide) hb
  | succ fuel ih =>
    intro x y s
    rcases s with _ | ⟨c, rest⟩
    · trivial
    · rw [parseOps.eq_def]
      dsimp only
      split
      · cases hrc : readCoords base (c / 8) x y rest with
        | error e => exact exceptWF_error (readCoords_wf N base hb _ x y rest) hrc
        | ok q =>
          obtain ⟨pts, x1, y1, s1⟩ := q
          dsimp only
          cases hrec : parseOps base fuel x1 y1 s1 with
          | error e => exact exceptWF_error (ih x1 y1 s1) hrec
          | ok ops => trivial
      · split
        · cases hrc : readCoords base (c / 8) x y rest with
          | error e => exact exceptWF_error (readCoords_wf N base hb _ x y rest) hrc
          | ok q =>
            obtain ⟨pts, x1, y1, s1⟩ := q
            dsimp only
            cases hrec : parseOps base fuel x1 y1 s1 with
            | error e => exact exceptWF_error (ih x1 y1 s1) hrec
            | ok ops => trivial
        · split
          · split
            · cases hrec : parseOps base fuel x y rest with
              | error e => exact exceptWF_error (ih x y rest) hrec
              | ok ops => trivial
            · exact errOK_mk (by decide) hb
          · exact errOK_mk (by decide) hb

/-- Well-formedness of the multipoint builder. -/
theorem buildPoints_wf (N base : Nat) (hb : base ≤ N) :
    ∀ (ops : List GeomOp) (acc : List (Int × Int)),
      ExceptWF N (fun _ => True) (buildPoints base ops acc) := by
  intro ops
  induction ops with
  | nil => intro acc; trivial
  | cons op rest ih =>
    intro acc
    cases op with
    | move pts => exact ih (acc ++ pts)
    | line pts => exact errOK_mk (by decide) hb
    | close => exact errOK_mk (by decide) hb

/-- Well-formedness of the linestring builder. -/
theorem buildLines_wf (N base : Nat) (hb : base ≤ N) :
    ∀ (ops : List GeomOp) (done : List (List (Int × Int))) (cur : List (Int × Int)),
      ExceptWF N (fun _ => True) (buildLines base ops done cur) := by
  intro ops
  induction ops with
  | nil => intro done cur; rw [buildLines]; trivial
  | cons op rest ih =>
    intro done cur
    cases op with
    | move pts => exact ih _ pts
    | line pts => exact ih done (cur ++ pts)
    | close => exact errOK_mk (by decide) hb

/-- Well-formedness of the polygon builder. -/
theorem buildPolys_wf (N base : Nat) (hb : base ≤ N) :
    ∀ (ops : List GeomOp)
      (polys : List (Option (List (Int × Int)) × List (List (Int × Int))))
      (cur : List (Int × Int)),
      ExceptWF N (fun _ => True) (buildPolys base ops polys cur) := by
  intro ops
  induction ops with
  | nil =>
    intro polys cur
    rw [buildPolys]
    split
    · trivial
    · exact errOK_mk (by decide) hb
  | cons op rest ih =>
    intro polys cur
    cases op with
    | move pts =>
      rw [buildPolys]
      split
      · exact ih polys pts
      · exact errOK_mk (by decide) hb
    | line pts => exact ih polys (cur ++ pts)
    | close =>
      rw [buildPolys]
      split
      · exact errOK_mk (by decide) hb
      · exact ih _ []

/-- Well-formedness of the geometry assembler. -/
theorem decode_geometry_wf (N base : Nat) (hb : base ≤ N) (gt : GeomType)
    (cmds : List Nat) :
    ExceptWF N (fun _ => True) (decode_geometry base gt cmds) := by
  cases gt with
  | unknown => trivial
  | point =>
    rw [decode_geometry]
    cases hop : parseOps base (cmds.length + 1) 0 0 cmds with
    | error e => exact exceptWF_error (parseOps_wf N base hb _ 0 0 cmds) hop
    | ok ops =>
      dsimp only
      cases hbp : buildPoints base ops [] with
      | error e => exact exceptWF_error (buildPoints_wf N base hb ops []) hbp
      | ok pts => trivial
  | lineString =>
    rw [decode_geometry]
    cases hop : parseOps base (cmds.length + 1) 0 0 cmds with
    | error e => exact exceptWF_error (parseOps_wf N base hb _ 0 0 cmds) hop
    | ok ops =>
      dsimp only
      cases hbp : buildLines base ops [] [] with
      | error e => exact exceptWF_error (buildLines_wf N base hb ops [] []) hbp
      | ok ls => trivial
  | polygon =>
    rw [decode_geometry]
    cases hop : parseOps base (cmds.length + 1) 0 0 cmds with
    | error e => exact exceptWF_error (parseOps_wf N base hb _ 0 0 cmds) hop
    | ok ops =>
      dsimp only
      cases hbp : buildPolys base ops [] [] with
      | error e => exact exceptWF_error (buildPolys_wf N base hb ops [] []) hbp
      | ok ps => trivial

/-- Well-formedness of the feature field loop. -/
theorem decodeFeatureLoop_wf (N : Nat) :
    ∀ (fuel : Nat) (r : Reader) (acc : FeatureAcc), ReaderBound N r →
      ExceptWF N (fun _ => True) (decodeFeatureLoop fuel r acc) := by
  intro fuel
  induction fuel with
  | zero =>
    intro r acc hr
    rw [decodeFeatureLoop]
    exact errOK_mk (by decide) hr.off_le
  | succ fuel ih =>
    intro r acc hr
    rw [decodeFeatureLoop]
    cases hrem : r.rem with
    | nil => trivial
    | cons b rest =>
      dsimp only
      cases htag : read_tag r with
      | error e => exact exceptWF_error (read_tag_wf N r hr) htag
      | ok p =>
        obtain ⟨⟨fieldNum, wt⟩, r1⟩ := p
        have hr1 : ReaderBound N r1 := exceptWF_ok (read_tag_wf N r hr) htag
        dsimp only
        split
        · cases hv : read_varint r1 with
          | error e => exact exceptWF_error (read_varint_wf N r1 hr1) hv
          | ok q =>
            obtain ⟨v, r2⟩ := q
            exact ih r2 _ (exceptWF_ok (read_varint_wf N r1 hr1) hv)
        · cases hld : read_length_delimited r1 with
          | error e => exact exceptWF_error (read_length_delimited_wf N r1 hr1) hld
          | ok q =>
            obtain ⟨sub, r2⟩ := q
            obtain ⟨hsub, hr2⟩ := exceptWF_ok (read_length_delimited_wf N r1 hr1) hld
            dsimp only
            cases hpv : parsePackedVarints (sub.rem.length + 1) sub with
            | error e => exact exceptWF_error (parsePackedVarints_wf N _ sub hsub) hpv
            | ok vs => exact ih r2 _ hr2
        · cases hv : read_varint r1 with
          | error e => exact exceptWF_error (read_varint_wf N r1 hr1) hv
          | ok q =>
            obtain ⟨v, r2⟩ := q
            exact ih r2 _ (exceptWF_ok (read_varint_wf N r1 hr1) hv)
        · cases hv : read_varint r1 with
          | error e => exact exceptWF_error (read_varint_wf N r1 hr1) hv
          | ok q =>
            obtain ⟨v, r2⟩ := q
            exact ih r2 _ (exceptWF_ok (read_varint_wf N r1 hr1) hv)
        · cases hld : read_length_delimited r1 with
          | error e => exact exceptWF_error (read_length_delimited_wf N r1 hr1) hld
          | ok q =>
            obtain ⟨sub, r2⟩ := q
            obtain ⟨hsub, hr2⟩ := exceptWF_ok (read_length_delimited_wf N r1 hr1) hld
            dsimp only
            cases hpv : parsePackedVarints (sub.rem.length + 1) sub with
            | error e => exact exceptWF_error (parsePackedVarints_wf N _ sub hsub) hpv
            | ok vs => exact ih r2 _ hr2
        · cases hv : read_varint r1 with
          | error e => exact exceptWF_error (read_varint_wf N r1 hr1) hv
          | ok q =>
            obtain ⟨v, r2⟩ := q
            exact ih r2 _ (exceptWF_ok (read_varint_wf N r1 hr1) hv)
        · cases hsk : skip_field wt r1 with
          | error e => exact exceptWF_error (skip_field_wf N wt r1 hr1) hsk
          | ok r2 => exact ih r2 _ (exceptWF_ok (skip_field_wf N wt r1 hr1) hsk)

/-- Well-formedness of the Feature decoder. -/
theorem decode_feature_wf (N : Nat) (sub : Reader) (hr : ReaderBound N sub) :
    ExceptWF N (fun _ => True) (decode_feature sub) := by
  rw [decode_feature]
  cases hloop : decodeFeatureLoop (sub.rem.length + 1) sub ⟨none, [], 0, []⟩ with
  | error e => exact exceptWF_error (decodeFeatureLoop_wf N _ sub _ hr) hloop
  | ok acc =>
    dsimp only
    cases hpt : pairTags acc.rawTags with
    | none => exact errOK_mk (by decide) hr.off_le
    | some pairs =>
      dsimp only
      cases hg : decode_geometry sub.off (geomTypeOfNat acc.gtypeRaw) acc.geomRaw with
      | error e =>
        exact exceptWF_error (decode_geometry_wf N sub.off hr.off_le _ _) hg
      | ok g => trivial

/-- Well-formedness of the tag dereferencing loop of one feature. -/
theorem derefFeature_go_wf (N base : Nat) (hb : base ≤ N)
    (keys : List (List Nat)) (values : List PropValue) :
    ∀ l : List (Nat × Nat),
      ExceptWF N (fun _ => True) (derefFeature.go base keys values l) := by
  intro l
  induction l with
  | nil => trivial
  | cons p rest ih =>
    obtain ⟨ki, vi⟩ := p
    rw [derefFeature.go]
    cases hk : keys.get? ki with
    | none => exact errOK_mk (by decide) hb
    | some k =>
      cases hv : values.get? vi with
      | none => exact errOK_mk (by decide) hb
      | some v =>
        dsimp only
        cases hrec : derefFeature.go base keys values rest with
        | error e => exact exceptWF_error ih hrec
        | ok ps => trivial

/-- Well-formedness of the dereferencing of one feature. -/
theorem derefFeature_wf (N base : Nat) (hb : base ≤ N)
    (keys : List (List Nat)) (values : List PropValue) (f : FeatureRaw) :
    ExceptWF N (fun _ => True) (derefFeature base keys values f) := by
  rw [derefFeature]
  cases hg : derefFeature.go base keys values f.tagPairs with
  | error e => exact exceptWF_error (derefFeature_go_wf N base hb keys values _) hg
  | ok props => trivial

/-- Well-formedness of feature dereferencing. -/
theorem derefFeatures_wf (N base : Nat) (hb : base ≤ N)
    (keys : List (List Nat)) (values : List PropValue) :
    ∀ fs : List FeatureRaw,
      ExceptWF N (fun _ => True) (derefFeatures base keys values fs) := by
  intro fs
  induction fs with
  | nil => trivial
  | cons f rest ih =>
    rw [derefFeatures]
    cases hd : derefFeature base keys values f with
    | error e => exact exceptWF_error (derefFeature_wf N base hb keys values f) hd
    | ok f1 =>
      dsimp only
      cases hrec : derefFeatures base keys values rest with
      | error e => exact exceptWF_error ih hrec
      | ok l => trivial

/-- Well-formedness of the layer field loop. -/
theorem decodeLayerLoop_wf (N : Nat) :
    ∀ (fuel : Nat) (r : Reader) (acc : LayerAcc), ReaderBound N r →
      ExceptWF N (fun _ => True) (decodeLayerLoop fuel r acc) := by
  intro fuel
  induction fuel with
  | zero =>
    intro r acc hr
    rw [decodeLayerLoop]
    exact errOK_mk (by decide) hr.off_le
  | succ fuel ih =>
    intro r acc hr
    rw [decodeLayerLoop]
    cases hrem : r.rem with
    | nil => trivial
    | cons b rest =>
      dsimp only
      cases htag : read_tag r with
      | error e => exact exceptWF_error (read_tag_wf N r hr) htag
      | ok p =>
        obtain ⟨⟨fieldNum, wt⟩, r1⟩ := p
        have hr1 : ReaderBound N r1 := exceptWF_ok (read_tag_wf N r hr) htag
        dsimp only
        split
        · cases hld : read_length_delimited r1 with
          | error e => exact exceptWF_error (read_length_delimited_wf N r1 hr1) hld
          | ok q =>
            obtain ⟨sub, r2⟩ := q
            obtain ⟨hsub, hr2⟩ := exceptWF_ok (read_length_delimited_wf N r1 hr1) hld
            dsimp only
            split
            · exact ih r2 _ hr2
            · exact errOK_mk (by decide) hsub.off_le
        · cases hld : read_length_delimited r1 with
          | error e => exact exceptWF_error (read_length_delimited_wf N r1 hr1) hld
          | ok q =>
            obtain ⟨sub, r2⟩ := q
            obtain ⟨hsub, hr2⟩ := exceptWF_ok (read_length_delimited_wf N r1 hr1) hld
            dsimp only
            cases hf : decode_feature sub with
            | error e => exact exceptWF_error (decode_feature_wf N sub hsub) hf
            | ok f => exact ih r2 _ hr2
        · cases hld : read_length_delimited r1 with
          | error e => exact exceptWF_error (read_length_delimited_wf N r1 hr1) hld
          | ok q =>
            obtain ⟨sub, r2⟩ := q
            obtain ⟨hsub, hr2⟩ := exceptWF_ok (read_length_delimited_wf N r1 hr1) hld
            dsimp only
            split
            · exact ih r2 _ hr2
            · exact errOK_mk (by decide) hsub.off_le
        · cases hld : read_length_delimited r1 with
          | error e => exact exceptWF_error (read_length_delimited_wf N r1 hr1) hld
          | ok q =>
            obtain ⟨sub, r2⟩ := q
            obtain ⟨hsub, hr2⟩ := exceptWF_ok (read_length_delimited_wf N r1 hr1) hld
            dsimp only
            cases hv : decode_value sub with
            | error e => exact exceptWF_error (decode_value_wf N sub hsub) hv
            | ok v => exact ih r2 _ hr2
        · cases hv : read_varint r1 with
          | error e => exact exceptWF_error (read_varint_wf N r1 hr1) hv
          | ok q =>
            obtain ⟨v, r2⟩ := q
            exact ih r2 _ (exceptWF_ok (read_varint_wf N r1 hr1) hv)
        · cases hv : read_varint r1 with
          | error e => exact exceptWF_error (read_varint_wf N r1 hr1) hv
          | ok q =>
            obtain ⟨v, r2⟩ := q
            exact ih r2 _ (exceptWF_ok (read_varint_wf N r1 hr1) hv)
        · cases hsk : skip_field wt r1 with
          | error e => exact exceptWF_error (skip_field_wf N wt r1 hr1) hsk
          | ok r2 => exact ih r2 _ (exceptWF_ok (skip_field_wf N wt r1 hr1) hsk)

/-- Well-formedness of the Layer decoder. -/
theorem decode_layer_wf (N : Nat) (sub : Reader) (hr : ReaderBound N sub) :
    ExceptWF N (fun _ => True) (decode_layer sub) := by
  rw [decode_layer]
  cases hloop : decodeLayerLoop (sub.rem.length + 1) sub ⟨none, none, none, [], [], []⟩ with
  | error e => exact exceptWF_error (decodeLayerLoop_wf N _ sub _ hr) hloop
  | ok acc =>
    dsimp only
    cases hname : acc.name with
    | none => exact errOK_mk (by decide) hr.off_le
    | some nm =>
      dsimp only
      cases hd : derefFeatures sub.off acc.keys acc.values acc.feats with
      | error e =>
        exact exceptWF_error (derefFeatures_wf N sub.off hr.off_le acc.keys acc.values acc.feats) hd
      | ok fs => trivial

/-- Well-formedness of the top-level tile loop. -/
theorem decodeTileLoop_wf (N : Nat) :
    ∀ (fuel : Nat) (r : Reader) (acc : List LayerRec), ReaderBound N r →
      ExceptWF N (fun _ => True) (decodeTileLoop fuel r acc) := by
  intro fuel
  induction fuel with
  | zero =>
    intro r acc hr
    rw [decodeTileLoop]
    exact errOK_mk (by decide) hr.off_le
  | succ fuel ih =>
    intro r acc hr
    rw [decodeTileLoop]
    cases hrem : r.rem with
    | nil => trivial
    | cons b rest =>
      dsimp only
      cases htag : read_tag r with
      | error e => exact exceptWF_error (read_tag_wf N r hr) htag
      | ok p =>
        obtain ⟨⟨fieldNum, wt⟩, r1⟩ := p
        have hr1 : ReaderBound N r1 := exceptWF_ok (read_tag_wf N r hr) htag
        dsimp only
        split
        · cases hld : read_length_delimited r1 with
          | error e => exact exceptWF_error (read_length_delimited_wf N r1 hr1) hld
          | ok q =>
            obtain ⟨sub, r2⟩ := q
            obtain ⟨hsub, hr2⟩ := exceptWF_ok (read_length_delimited_wf N r1 hr1) hld
            dsimp only
            cases hl : decode_layer sub with
            | error e => exact exceptWF_error (decode_layer_wf N sub hsub) hl
            | ok l => exact ih r2 _ hr2
        · cases hsk : skip_field wt r1 with
          | error e => exact exceptWF_error (skip_field_wf N wt r1 hr1) hsk
          | ok r2 => exact ih r2 _ (exceptWF_ok (skip_field_wf N wt r1 hr1) hsk)

/-- A failing tile decode fails with the same structured error whatever
layers were accumulated before the failure point: partial results never
reach the caller. -/
theorem decodeTileLoop_error_acc :
    ∀ (fuel : Nat) (r : Reader) (e : DecodeError) (acc acc2 : List LayerRec),
      decodeTileLoop fuel r acc = .error e → decodeTileLoop fuel r acc2 = .error e := by
  intro fuel
  induction fuel with
  | zero =>
    intro r e acc acc2 h
    rw [decodeTileLoop] at h ⊢
    exact h
  | succ fuel ih =>
    intro r e acc acc2 h
    rw [decodeTileLoop] at h ⊢
    cases hrem : r.rem with
    | nil =>
      rw [hrem] at h
      exact absurd h (by simp)
    | cons b rest =>
      rw [hrem] at h
      dsimp only at h ⊢
      cases htag : read_tag r with
      | error e1 =>
        rw [htag] at h
        exact h
      | ok p =>
        obtain ⟨⟨fieldNum, wt⟩, r1⟩ := p
        rw [htag] at h
        dsimp only at h ⊢
        by_cases hc : fieldNum = 3 ∧ wt = WireType.lengthDelimited
        · rw [if_pos hc] at h ⊢
          cases hld : read_length_delimited r1 with
          | error e1 =>
            rw [hld] at h
            exact h
          | ok q =>
            obtain ⟨sub, r2⟩ := q
            rw [hld] at h
            dsimp only at h ⊢
            cases hl : decode_layer sub with
            | error e1 =>
              rw [hl] at h
              exact h
            | ok l =>
              rw [hl] at h
              exact ih r2 e (acc ++ [l]) (acc2 ++ [l]) h
        · rw [if_neg hc] at h ⊢
          cases hsk : skip_field wt r1 with
          | error e1 =>
            rw [hsk] at h
            exact h
          | ok r2 =>
            rw [hsk] at h
            exact ih r2 e acc acc2 h

/-- C5: whenever tile decoding fails, the caller receives a single
structured error carrying the error kind, a non-empty human-readable
message, and a byte offset inside the input buffer, and no partial Tile is
produced: the same error results whatever layers had already been decoded
before the failure. -/
theorem decode_tile_failure_structured (buf : List Nat) (e : DecodeError)
    (h : decode_tile buf = .error e) :
    e.msg ≠ "" ∧ e.off ≤ buf.length
    ∧ ∀ acc : List LayerRec,
        decodeTileLoop (buf.length + 1) ⟨buf, 0⟩ acc = .error e := by
  have hlayers : decodeTileLayers buf = .error e := by
    rw [decode_tile] at h
    cases hx : decodeTileLayers buf with
    | error e1 =>
      rw [hx] at h
      cases h
      rfl
    | ok ls =>
      rw [hx] at h
      cases h
  have hwf := decodeTileLoop_wf buf.length (buf.length + 1) ⟨buf, 0⟩ []
    (by unfold ReaderBound; simp)
  rw [decodeTileLayers] at hlayers
  have herr := exceptWF_error hwf hlayers
  exact ⟨herr.1, herr.2, fun acc => decodeTileLoop_error_acc _ _ e [] acc hlayers⟩

/-- C5 witness: the one-byte buffer holding only the tag 8 fails (its skip
runs off the buffer); the error message is non-empty, the offset 1 lies in
the buffer, and every accumulator yields the same error. -/
theorem decode_tile_failure_structured_witness :
    ("buffer ended inside varint" : String) ≠ ""
    ∧ 1 ≤ ([8] : List Nat).length
    ∧ ∀ acc : List LayerRec,
        decodeTileLoop (([8] : List Nat).length + 1) ⟨[8], 0⟩ acc
          = .error ⟨.truncatedInput, "buffer ended inside varint", 1⟩ :=
  decode_tile_failure_structured [8] ⟨.truncatedInput, "buffer ended inside varint", 1⟩ rfl

end GFW
